import Mathlib

/-!
Verification of the FMMLoader26 mod deployment/rollback core (`src/fmmloader26.py`).

The Python core is shallowly embedded over an explicit filesystem model:

* a path is a list of name components (`FPath`);
* a filesystem (`FS`) is a finite association list from file paths to file data
  (byte content plus a modification time, since `shutil.copy2` preserves mtimes
  and backup lookup sorts by mtime), together with a list of explicitly created
  directories; a path also counts as a directory when some file or explicit
  directory lies strictly below it;
* the mod store, the backup store and the live target tree are disjoint
  directory trees in the real program (the first two live under the private
  appdata directory, the target tree under the game/user environment), so they
  are modelled as separate values;
* Python exceptions are modelled with `Option`/`Except`/`Bool` flags, with the
  partially mutated state returned alongside, since mutations made before an
  exception persist in the source.

Each definition mirrors one Python function of the source and is named after it
where Lean naming permits.
-/

namespace FMM

/-- Filesystem paths: the list of name components of a POSIX-style path. -/
abbrev FPath := List String

/-- `p` is a strict (proper) prefix of `q` as a component list. -/
def strictPrefixB (p q : FPath) : Bool := p.isPrefixOf q && p != q

/-- Data stored for one file: its byte content and its modification time.
`shutil.copy2` (used throughout the source) preserves both. -/
structure FSFile where
  content : List Nat
  mtime : Nat
deriving DecidableEq, Repr, Inhabited

/-- A filesystem tree: files keyed by path, plus explicitly created
directories.  Directories also exist implicitly above any file. -/
structure FS where
  files : List (FPath × FSFile)
  dirs : List FPath
deriving DecidableEq, Repr, Inhabited

def FS.lookup (fs : FS) (p : FPath) : Option FSFile :=
  (fs.files.find? (fun e => e.1 == p)).map (·.2)

/-- `Path.is_file()`. -/
def FS.isFile (fs : FS) (p : FPath) : Bool := (fs.lookup p).isSome

/-- `Path.is_dir()`: an explicit directory, or an ancestor of an explicit
directory or of a file. -/
def FS.isDir (fs : FS) (p : FPath) : Bool :=
  fs.dirs.any (fun d => p == d || strictPrefixB p d) ||
  fs.files.any (fun e => strictPrefixB p e.1)

/-- `Path.exists()`. -/
def FS.pathExists (fs : FS) (p : FPath) : Bool := fs.isFile p || fs.isDir p

/-- Write (create or overwrite) the file at `p`. -/
def FS.insertFile (fs : FS) (p : FPath) (c : FSFile) : FS :=
  { fs with files := (p, c) :: fs.files.filter (fun e => e.1 != p) }

/-- `Path.unlink()` of an existing file. -/
def FS.removeFile (fs : FS) (p : FPath) : FS :=
  { fs with files := fs.files.filter (fun e => e.1 != p) }

/-- Record `p` as an explicitly created directory. -/
def FS.mkdirP (fs : FS) (p : FPath) : FS :=
  if fs.dirs.contains p then fs else { fs with dirs := fs.dirs ++ [p] }

/-- Some strict ancestor of `p` is a file (this is what makes
`mkdir(parents=True, exist_ok=True)` of `p` or of a directory above `p`
raise). -/
def FS.hasFileStrictAncestor (fs : FS) (p : FPath) : Bool :=
  fs.files.any (fun e => strictPrefixB e.1 p)

/-- `Path.mkdir(parents=True, exist_ok=True)`: fails (returns `none`, state
unchanged, since the blocking component is hit before anything new is created)
iff `p` itself or a strict ancestor of `p` exists as a file. -/
def mkdirParents (fs : FS) (p : FPath) : Option FS :=
  if fs.isFile p || fs.hasFileStrictAncestor p then none else some (fs.mkdirP p)

/-- Pairwise, no path in the list is a prefix (proper or improper) of
another: the shape of any set of distinct file paths in a real tree. -/
def pairwiseNoPrefixB : List FPath → Bool
  | [] => true
  | p :: rest =>
      rest.all (fun q => !(p.isPrefixOf q) && !(q.isPrefixOf p)) && pairwiseNoPrefixB rest

/-- Well-formedness of a filesystem value: file paths are pairwise
prefix-free, and no file path lies on or above an explicit directory. Every
tree reachable from a real filesystem satisfies this. -/
def FS.wfB (fs : FS) : Bool :=
  pairwiseNoPrefixB (fs.files.map (·.1)) &&
  fs.dirs.all (fun d => !(fs.files.any (fun e => e.1.isPrefixOf d)))

/-- Substring test, modelling Python's `needle in haystack`. -/
def listIsInfix (n h : List Char) : Bool := h.tails.any (fun t => n.isPrefixOf t)

/-- Substring test on strings (`needle in haystack` in Python). -/
def strContains (h n : String) : Bool := listIsInfix n.toList h.toList

/-- String prefix test (the semantics of a `p*` glob pattern), character by
character. -/
def strIsPrefix (p s : String) : Bool := p.toList.isPrefixOf s.toList

/-- Python's `str.lower()`, character by character. -/
def strLower (s : String) : String := String.mk (s.data.map Char.toLower)

/-- Whitespace, for `str.strip()`. -/
def isWS (c : Char) : Bool := c == ' ' || c == '\t' || c == '\n' || c == '\r'

/-- Python's `str.strip()`: drop leading and trailing whitespace. -/
def strTrim (s : String) : String :=
  String.mk (((s.data.dropWhile isWS).reverse.dropWhile isWS).reverse)

/-- The backup store `BACKUP_DIR`: a flat directory, kept as a list of
(filename, file data) in creation order (the order `Path.glob` reports, used
as the tie-break order of Python's stable `sorted`). -/
abbrev BStore := List (String × FSFile)

/-- `Path(target_file).name`: the final path component. -/
def lastName (p : FPath) : String := p.getLast?.getD ""

/-- Models `hashlib.sha256(str(target_file)).hexdigest()[:10]`: a short
deterministic digest of the absolute path.  The digest is modelled as the
path's components joined by an underscore, a deterministic stand-in with the
same role (distinct paths get distinct digests; the collision loop of
`backup_original` is modelled faithfully below regardless). -/
def pathHash (p : FPath) : String := String.intercalate "_" p

/-- The first backup filename tried for a target:
`f"{Path(target_file).name}.{h}.bak"`. -/
def backupBaseName (p : FPath) : String := lastName p ++ "." ++ pathHash p ++ ".bak"

def bHas (bs : BStore) (s : String) : Bool := bs.any (fun e => e.1 == s)

/-- The `while final.exists(): final = BACKUP_DIR / f"{dest.name}.{i}"` loop
of `backup_original`: the first of `nm`, `nm.1`, `nm.2`, … not yet present in
the backup store (a free name always exists among the first `|store| + 2`
candidates). -/
def freshBackupName (bs : BStore) (nm : String) : String :=
  ((nm :: (List.range (bs.length + 1)).map (fun i => nm ++ "." ++ toString (i + 1))).find?
    (fun c => !(bHas bs c))).getD nm

/-- `backup_original(target_file)`: if the target exists (as a file; the only
call site guards with `tgt.exists() and tgt.is_file()`), copy it into the
backup store under a collision-free name.  `copy2` preserves content and
mtime. -/
def backup_original (fs : FS) (bs : BStore) (t : FPath) : BStore :=
  match fs.lookup t with
  | none => bs
  | some c => bs ++ [(freshBackupName bs (backupBaseName t), c)]

/-- `find_latest_backup_for_filename(filename)`: glob `filename*` over the
backup store (filename-prefix match), then take the entry with the greatest
mtime; Python's stable descending sort makes the earliest-listed entry win
ties. -/
def find_latest_backup_for_filename (bs : BStore) (filename : String) :
    Option (String × FSFile) :=
  match bs.filter (fun e => strIsPrefix filename e.1) with
  | [] => none
  | c :: rest => some (rest.foldl (fun best e => if best.2.mtime < e.2.mtime then e else best) c)

/-- One `files` entry of a manifest.  `platform` is the raw string value with
`""` for an absent or empty tag (both are falsy in Python); `source` and
`target_subpath` are `none` when absent or empty (falsy). -/
structure FileEntry where
  platform : String
  source : Option FPath
  target_subpath : Option FPath
deriving DecidableEq, Repr

/-- A manifest as parsed from JSON, before `read_manifest` fills defaults:
`none` marks an absent key (`install_path` also uses `none` for a
present-but-falsy value, since the consumer tests truthiness).  A present
`files` key that is not a list is treated like an absent one, as in the
source. -/
structure RawManifest where
  name : Option String
  mtype : Option String
  install_path : Option FPath
  files : Option (List FileEntry)
deriving Repr

/-- A manifest after `read_manifest` applied its defaults. -/
structure Manifest where
  name : String
  mtype : String
  install_path : Option FPath
  files : List FileEntry
deriving Repr

/-- The defaulting part of `read_manifest(mod_dir)`: `name` defaults to the
mod directory's name, `type` to `"misc"`, `files` to `[]`. -/
def read_manifest (dirName : String) (raw : RawManifest) : Manifest :=
  { name := raw.name.getD dirName
    mtype := raw.mtype.getD "misc"
    install_path := raw.install_path
    files := raw.files.getD [] }

/-- State of one mod directory's `manifest.json`: absent (`FileNotFoundError`
from `read_manifest`), present but malformed (a `json.loads` parse error), or
readable. -/
inductive ManifestFile
  | absent
  | malformed
  | ok (raw : RawManifest)

/-- One mod in the mod store: its manifest file state and the files of its
directory (paths relative to the mod root). -/
structure ModData where
  mf : ManifestFile
  contents : FS

/-- Work items of the directory branch of `_copy_any` (`src.rglob("*")`):
child directories and child files of the source tree, with their paths
relative to the source root.  The model enumerates directories before files;
`rglob`'s interleaving order is unspecified and nothing downstream depends on
it. -/
inductive CopyItem
  | dirItem (rel : FPath)
  | fileItem (rel : FPath) (c : FSFile)

/-- All strict prefixes of a path (the chain of its ancestors). -/
def properPrefixes (p : FPath) : List FPath :=
  (List.range p.length).map (fun i => p.take i)

/-- Directories of a source tree that exist implicitly as ancestors of its
files, strictly below `src`. -/
def derivedDirs (src : FPath) (files : List (FPath × FSFile)) : List FPath :=
  (files.flatMap (fun e => (properPrefixes e.1).filter (fun q => strictPrefixB src q))).dedup

/-- The `src.rglob("*")` enumeration of the directory branch of `_copy_any`. -/
def copyItemsOf (modFS : FS) (src : FPath) : List CopyItem :=
  ((modFS.dirs.filter (fun d => strictPrefixB src d)) ++ derivedDirs src modFS.files).dedup.map
      (fun d => CopyItem.dirItem (d.drop src.length))
    ++ (modFS.files.filter (fun e => strictPrefixB src e.1)).map
      (fun e => CopyItem.fileItem (e.1.drop src.length) e.2)

/-- The per-child loop of the directory branch of `_copy_any`.  A child
directory does `out.mkdir(parents=True, exist_ok=True)`; a child file does
`out.parent.mkdir(parents=True, exist_ok=True)` then `shutil.copy2`, which
raises when `out` is a directory.  A raise aborts the remaining children
(returning `none` for the count) but keeps the files already copied, as the
Python exception does. -/
def runCopyItems (dst : FPath) : List CopyItem → FS → Nat → FS × Option Nat
  | [], fs, n => (fs, some n)
  | CopyItem.dirItem rel :: rest, fs, n =>
      let out := dst ++ rel
      if fs.hasFileStrictAncestor out || fs.isFile out then (fs, none)
      else runCopyItems dst rest (fs.mkdirP out) n
  | CopyItem.fileItem rel c :: rest, fs, n =>
      let out := dst ++ rel
      if fs.hasFileStrictAncestor out then (fs, none)
      else if fs.isDir out then (fs, none)
      else runCopyItems dst rest ((fs.mkdirP out.dropLast).insertFile out c) (n + 1)

/-- `_copy_any(src, dst)` over the mod's own tree `modFS`: merge-copy a file
or a directory into `dst`, returning the updated target tree and the number
of files copied (`none` when the copy raised; the partial state persists). -/
def copyAny (modFS : FS) (src : FPath) (fs : FS) (dst : FPath) : FS × Option Nat :=
  if modFS.isDir src then
    if fs.isFile dst || fs.hasFileStrictAncestor dst then (fs, none)
    else runCopyItems dst (copyItemsOf modFS src) (fs.mkdirP dst) 0
  else
    match modFS.lookup src with
    | some c =>
        if fs.hasFileStrictAncestor dst then (fs, none)
        else if fs.isDir dst then (fs, none)
        else ((fs.mkdirP dst.dropLast).insertFile dst c, some 1)
    | none => (fs, none)

/-- The aggregate result of `enable_mod`: final target tree, backup store and
the `wrote/skipped/backed_up/errors` counters. -/
structure EnResult where
  fs : FS
  bks : BStore
  wrote : Nat
  skipped : Nat
  backedUp : Nat
  errors : Nat
deriving DecidableEq, Repr

/-- One iteration of the `for e in files` loop of `enable_mod` (source lines
614-651): platform filter on the normalised tag, per-entry field and source
checks, backup of an existing target file, then `_copy_any`. -/
def enableStep (modFS : FS) (plat : String) (base : FPath) (st : EnResult)
    (e : FileEntry) : EnResult :=
  if strLower (strTrim e.platform) != "" && strLower (strTrim e.platform) != plat then
    { st with skipped := st.skipped + 1 }
  else
    match e.source, e.target_subpath with
    | some srel, some trel =>
        if !(modFS.pathExists srel) then { st with errors := st.errors + 1 }
        else
          match copyAny modFS srel st.fs (base ++ trel) with
          | (fs1, some n) =>
              { st with fs := fs1,
                        bks := if st.fs.isFile (base ++ trel) then
                                 backup_original st.fs st.bks (base ++ trel) else st.bks,
                        wrote := st.wrote + n,
                        backedUp := st.backedUp +
                          (if st.fs.isFile (base ++ trel) then 1 else 0) }
          | (fs1, none) =>
              { st with fs := fs1,
                        bks := if st.fs.isFile (base ++ trel) then
                                 backup_original st.fs st.bks (base ++ trel) else st.bks,
                        backedUp := st.backedUp +
                          (if st.fs.isFile (base ++ trel) then 1 else 0),
                        errors := st.errors + 1 }
    | _, _ => { st with errors := st.errors + 1 }

/-- The whole per-entry loop of `enable_mod` over a resolved install root
`base`. -/
def enableEntries (modFS : FS) (plat : String) (base : FPath)
    (entries : List FileEntry) (fs : FS) (bks : BStore) : EnResult :=
  entries.foldl (enableStep modFS plat base) ⟨fs, bks, 0, 0, 0, 0⟩

/-- The aggregate result of `disable_mod`: final target tree and the
`removed/restored/no_backup/absent/errors` counters. -/
structure DisResult where
  fs : FS
  removed : Nat
  restored : Nat
  noBackup : Nat
  notPresent : Nat
  errors : Nat
deriving DecidableEq, Repr

/-- One iteration of the `for e in files` loop of `disable_mod` (source lines
678-703): no platform filter; unlink the target if it exists (unlinking a
directory raises and is counted as an error, leaving it in place), then
restore the most recent backup matching the target's basename, if any. -/
def disableStep (bks : BStore) (base : FPath) (st : DisResult) (e : FileEntry) : DisResult :=
  match e.target_subpath with
  | none => { st with errors := st.errors + 1 }
  | some trel =>
      let tgt := base ++ trel
      if st.fs.pathExists tgt then
        if st.fs.isFile tgt then
          let fs1 := st.fs.removeFile tgt
          match find_latest_backup_for_filename bks (lastName tgt) with
          | some b =>
              { st with fs := fs1.insertFile tgt b.2, removed := st.removed + 1,
                        restored := st.restored + 1 }
          | none =>
              { st with fs := fs1, removed := st.removed + 1, noBackup := st.noBackup + 1 }
        else { st with errors := st.errors + 1 }
      else { st with notPresent := st.notPresent + 1 }

/-- The whole per-entry loop of `disable_mod` over a resolved install root
`base`.  The backup store is read but never modified by `disable_mod`. -/
def disableEntries (bks : BStore) (base : FPath) (entries : List FileEntry)
    (fs : FS) : DisResult :=
  entries.foldl (disableStep bks base) ⟨fs, 0, 0, 0, 0, 0⟩

/-- Result of `get_target_for_type`: either a resolved root (possibly `none`,
when `get_target()` is unset for `ui`/`bundle`) together with the filesystem
after the auto-`mkdir`s, or a raised `mkdir` exception (with the state at the
raise). -/
inductive RouteResult
  | ok (base : Option FPath) (fs : FS)
  | raised (fs : FS)
deriving DecidableEq, Repr

/-- The graphics sub-route of `get_target_for_type` (source lines 549-556):
substring match on the lowercased mod name; `"kit"` also matches `"kits"`,
`"face"` also matches `"faces"`, `"logo"` also matches `"logos"`, so only the
plural-only alternatives `"portraits"` and `"badges"` are kept separately. -/
def graphicsSub (userDir : FPath) (mn : String) : FPath :=
  if strContains mn "kit" then userDir ++ ["graphics", "kits"]
  else if strContains mn "face" || strContains mn "portraits" then
    userDir ++ ["graphics", "faces"]
  else if strContains mn "logo" || strContains mn "badges" then
    userDir ++ ["graphics", "logos"]
  else userDir ++ ["graphics"]

/-- `get_target_for_type(mod_type, mod_name)` (source lines 526-562) over the
user-data root `userDir` and the configured game target `targetCfg`:
`ui`/`bundle` route to the configured target; `tactics` to `userDir/tactics`;
`graphics` to a subfolder of `userDir/graphics` picked by substring match on
the lowercased mod name; anything else to `userDir` itself.  The non-`ui`
branches auto-create their directory. -/
def get_target_for_type (fs : FS) (userDir : FPath) (targetCfg : Option FPath)
    (modType modName : String) : RouteResult :=
  if strLower modType == "ui" || strLower modType == "bundle" then .ok targetCfg fs
  else if strLower modType == "tactics" then
    match mkdirParents fs (userDir ++ ["tactics"]) with
    | some fs1 => .ok (some (userDir ++ ["tactics"])) fs1
    | none => .raised fs
  else if strLower modType == "graphics" then
    match mkdirParents fs (userDir ++ ["graphics"]) with
    | none => .raised fs
    | some fs1 =>
        match mkdirParents fs1 (graphicsSub userDir (strLower modName)) with
        | none => .raised fs1
        | some fs2 => .ok (some (graphicsSub userDir (strLower modName))) fs2
  else
    match mkdirParents fs userDir with
    | some fs1 => .ok (some userDir) fs1
    | none => .raised fs

/-- Errors `enable_mod` can raise before its per-entry loop. -/
inductive EnErr
  | modNotFound
  | manifestMissing
  | manifestParse
  | routeError
  | noTarget
  | noFiles
deriving DecidableEq, Repr

/-- The global state `enable_mod` touches: the mod store, the configured game
target, the user-data root, the running platform tag, the live filesystem and
the backup store. -/
structure World where
  mods : List (String × ModData)
  targetCfg : Option FPath
  userDir : FPath
  plat : String
  fs : FS
  bks : BStore

/-- The target-root resolution step of `enable_mod` (source lines 585-591):
an explicit `install_path` override wins; otherwise route by the normalised
mod type and display name. -/
def resolveRoute (w : World) (mf : Manifest) : RouteResult :=
  match mf.install_path with
  | some p => .ok (some p) w.fs
  | none =>
      get_target_for_type w.fs w.userDir w.targetCfg
        (strLower (strTrim (if mf.mtype == "" then "misc" else mf.mtype))) mf.name

/-- The tail of `enable_mod` after a root `base` was resolved (source lines
596-655): auto-create the root only when it is under the user-data root,
check for an empty `files` list, then run the per-entry loop. -/
def enableWithBase (w : World) (md : ModData) (mf : Manifest) (base : FPath)
    (fs1 : FS) : World × Except EnErr EnResult :=
  let after : Option FS :=
    if !(fs1.pathExists base) then
      if w.userDir.isPrefixOf base then mkdirParents fs1 base else none
    else some fs1
  match after with
  | none =>
      ({ w with fs := fs1 },
       .error (if !(fs1.pathExists base) && w.userDir.isPrefixOf base
               then .routeError else .noTarget))
  | some fs2 =>
      if mf.files.isEmpty then ({ w with fs := fs2 }, .error .noFiles)
      else
        let r := enableEntries md.contents w.plat base mf.files fs2 w.bks
        ({ w with fs := r.fs, bks := r.bks }, .ok r)

/-- `enable_mod(mod_name)` (source lines 577-655): mod-directory and manifest
precondition checks, target-root resolution (with its auto-`mkdir` side
effects), the empty-`files` check, then the per-entry loop.  The state at the
moment an error is raised is returned with the error. -/
def enable_mod (w : World) (modName : String) : World × Except EnErr EnResult :=
  match w.mods.find? (fun e => e.1 == modName) with
  | none => (w, .error .modNotFound)
  | some md =>
    match md.2.mf with
    | .absent => (w, .error .manifestMissing)
    | .malformed => (w, .error .manifestParse)
    | .ok raw =>
      let mf := read_manifest modName raw
      match resolveRoute w mf with
      | .raised fs1 => ({ w with fs := fs1 }, .error .routeError)
      | .ok none fs1 => ({ w with fs := fs1 }, .error .noTarget)
      | .ok (some base) fs1 => enableWithBase w md.2 mf base fs1

/-- The conflict index: `target_subpath` (as a path) to the list of mods
touching it, keys in first-touch order, each value sorted. -/
abbrev ModIndex := List (FPath × List String)

instance exceptDecEq {e a : Type} [DecidableEq e] [DecidableEq a] :
    DecidableEq (Except e a) := fun x y =>
  match x, y with
  | .error u, .error v => if h : u = v then isTrue (by rw [h]) else isFalse (by simp [h])
  | .ok u, .ok v => if h : u = v then isTrue (by rw [h]) else isFalse (by simp [h])
  | .error u, .ok v => isFalse (by simp)
  | .ok u, .error v => isFalse (by simp)

/-- `idx.setdefault(tgt, set()).add(m)`: set-insert `m` under key `t`. -/
def idxAdd (idx : ModIndex) (t : FPath) (m : String) : ModIndex :=
  match idx.find? (fun e => e.1 == t) with
  | some e =>
      if e.2.contains m then idx
      else idx.map (fun e' => if e'.1 == t then (e'.1, e'.2 ++ [m]) else e')
  | none => idx ++ [(t, [m])]

/-- One iteration of the inner `for f in mf.get("files", [])` loop of
`build_mod_index`: skip entries whose raw (unnormalised) platform tag is
truthy and differs from the running platform, skip falsy targets, else index
the mod under the target. -/
def indexAddEntry (plat : String) (m : String) (idx : ModIndex) (f : FileEntry) : ModIndex :=
  if f.platform != "" && f.platform != plat then idx
  else
    match f.target_subpath with
    | none => idx
    | some t => idxAdd idx t m

/-- Insert into a lexicographically sorted list of strings. -/
def insStr (x : String) : List String → List String
  | [] => [x]
  | y :: ys => if x ≤ y then x :: y :: ys else y :: insStr x ys

/-- `sorted(...)` on a list of strings. -/
def insSortStr : List String → List String
  | [] => []
  | x :: xs => insStr x (insSortStr xs)

/-- One iteration of the outer `for m in names` loop of `build_mod_index`:
a raised parse error short-circuits everything after it. -/
def indexStep (mods : List (String × ModData)) (plat : String)
    (acc : Except Unit ModIndex) (m : String) : Except Unit ModIndex :=
  match acc with
  | .error e => .error e
  | .ok idx =>
    match mods.find? (fun e => e.1 == m) with
    | none => .ok idx
    | some md =>
      match md.2.mf with
      | .absent => .ok idx
      | .malformed => .error ()
      | .ok raw =>
          .ok ((read_manifest m raw).files.foldl (indexAddEntry plat m) idx)

/-- `build_mod_index(names)` (source lines 923-955): for each named mod, skip
it when its directory is missing or its manifest file is absent
(`FileNotFoundError` is the only caught exception); a malformed manifest is a
parse error that propagates and fails the whole index.  Values are finally
sorted. -/
def build_mod_index (mods : List (String × ModData)) (names : List String)
    (plat : String) : Except Unit ModIndex :=
  (names.foldl (indexStep mods plat) (.ok []))
    |>.map (fun idx => idx.map (fun e => (e.1, insSortStr e.2)))

/-- `find_conflicts(names)`: the index restricted to keys touched by more
than one mod. -/
def find_conflicts (mods : List (String × ModData)) (names : List String)
    (plat : String) : Except Unit ModIndex :=
  (build_mod_index mods names plat).map (fun idx => idx.filter (fun e => 1 < e.2.length))

/-- One key of the loop of `create_restore_point` (source lines 974-986):
when the key exists under `base`, copy it (file, or whole directory tree via
`copytree`) into the snapshot tree, keyed by the index-relative path. -/
def crpStep (base : FPath) (fs : FS) (rp : FS) (rel : FPath) : FS :=
  if fs.isFile (base ++ rel) then
    rp.insertFile rel ((fs.lookup (base ++ rel)).getD default)
  else if fs.isDir (base ++ rel) then
    (fs.dirs.filter (fun d => (base ++ rel).isPrefixOf d)).foldl
      (fun r d => r.mkdirP (d.drop base.length))
      ((fs.files.filter (fun e => strictPrefixB (base ++ rel) e.1)).foldl
        (fun r e => r.insertFile (e.1.drop base.length) e.2) rp)
  else rp

/-- `create_restore_point(base)` (source lines 968-992), given the keys of
the conflict index over the enabled set: snapshot every index key that exists
under `base` into a fresh tree keyed by the index-relative path. -/
def create_restore_point (base : FPath) (fs : FS) (keys : List FPath) : FS :=
  keys.foldl (crpStep base fs) ⟨[], []⟩

/-- Phase 1 of `rollback_to_restore_point` for one managed path (source lines
1014-1044): delete the live file at the managed path when the snapshot has no
file there; for a managed directory, delete every live file below it whose
base-relative path is not in the snapshot, then prune emptied directories
below it bottom-up. -/
def rollbackPhase1Step (base : FPath) (restoreFiles : List FPath) (f : FS) (m : FPath) : FS :=
  let tp := base ++ m
  if f.pathExists tp then
    if f.isFile tp then
      if restoreFiles.contains m then f else f.removeFile tp
    else if f.isDir tp then
      let keep : FPath × FSFile → Bool := fun e =>
        !(strictPrefixB tp e.1 && !(restoreFiles.contains (e.1.drop base.length)))
      let f2 : FS := { f with files := f.files.filter keep }
      let keepDir : FPath → Bool := fun d =>
        !(strictPrefixB tp d && !(f2.files.any (fun e => strictPrefixB d e.1)))
      { f2 with dirs := f2.dirs.filter keepDir }
    else f
  else f

/-- Phase 2 of `rollback_to_restore_point` (source lines 1047-1054): copy
every snapshot file back under `base`, creating parents.  `copy2` onto a
live directory raises, aborting the remaining copies (`false`); the files
already copied persist. -/
def runRestore (base : FPath) : List (FPath × FSFile) → FS → FS × Bool
  | [], f => (f, true)
  | (rel, c) :: rest, f =>
      let dst := base ++ rel
      if f.hasFileStrictAncestor dst then (f, false)
      else if f.isDir dst then (f, false)
      else runRestore base rest ((f.mkdirP dst.dropLast).insertFile dst c)

/-- `rollback_to_restore_point(name, base)` (source lines 995-1056), given
the snapshot tree `rp` and the managed paths (the conflict-index keys over
the currently enabled set): delete orphans under managed paths, then restore
every snapshot file.  The `Bool` is `false` when the restore phase raised. -/
def rollback_to_restore_point (base : FPath) (fs : FS) (rp : FS)
    (managed : List FPath) : FS × Bool :=
  let restoreFiles := rp.files.map (·.1)
  let fs1 := managed.foldl (rollbackPhase1Step base restoreFiles) fs
  runRestore base rp.files fs1

/-- The effective apply order computed by `apply_enabled_mods_in_order`
(source lines 1070-1072): `load_order` filtered to enabled mods, then
enabled mods absent from `load_order` in their original order. -/
def applyOrderList (enabled order : List String) : List String :=
  order.filter (fun m => enabled.contains m) ++
    enabled.filter (fun m => !(order.contains m))

/-- The persisted configuration slice the working-set accessors touch. -/
structure Config where
  enabled_mods : List String
  load_order : List String
deriving DecidableEq, Repr

/-- `set_enabled_mods(mods)`. -/
def set_enabled_mods (cfg : Config) (ms : List String) : Config :=
  { cfg with enabled_mods := ms }

/-- `set_load_order(order)`. -/
def set_load_order (cfg : Config) (ms : List String) : Config :=
  { cfg with load_order := ms }

/-- `get_enabled_mods()` (source lines 246-254): filter the stored list to
mods whose directory exists, write the filtered list back when anything was
dropped, and return it.  `existsOnDisk` models `(MODS_DIR / m).exists()`. -/
def get_enabled_mods (existsOnDisk : String → Bool) (cfg : Config) :
    List String × Config :=
  if (cfg.enabled_mods.filter existsOnDisk).length ≠ cfg.enabled_mods.length then
    (cfg.enabled_mods.filter existsOnDisk,
     set_enabled_mods cfg (cfg.enabled_mods.filter existsOnDisk))
  else (cfg.enabled_mods.filter existsOnDisk, cfg)

/-- `get_load_order()` (source lines 263-271): same self-cleaning filter for
the load order. -/
def get_load_order (existsOnDisk : String → Bool) (cfg : Config) :
    List String × Config :=
  if (cfg.load_order.filter existsOnDisk).length ≠ cfg.load_order.length then
    (cfg.load_order.filter existsOnDisk,
     set_load_order cfg (cfg.load_order.filter existsOnDisk))
  else (cfg.load_order.filter existsOnDisk, cfg)

/-- One `enable_mod` invocation as seen by the live tree: the mod's own file
tree, the resolved install root, and the manifest's file entries. -/
structure EnCall where
  modFS : FS
  base : FPath
  entries : List FileEntry

/-- A batch of `enable_mod` invocations over the live tree, as
`apply_enabled_mods_in_order` performs after its restore point: each call
runs the per-entry loop of `enable_mod`, threading the filesystem and the
backup store. -/
def applyCalls (plat : String) (calls : List EnCall) (fs : FS) (bks : BStore) :
    FS × BStore :=
  calls.foldl
    (fun s c =>
      let r := enableEntries c.modFS plat c.base c.entries s.1 s.2
      (r.fs, r.bks))
    (fs, bks)

/-- The resolved root of a routing result, when no exception was raised. -/
def routeBase : RouteResult → Option (Option FPath)
  | .ok b _ => some b
  | .raised _ => none

/-- Modelled from the spec (amended): the graphics sub-route table, keyed by
case-insensitive substring match on the mod's display name, with the plural
forms `portraits` and `badges` as the face/logo triggers (the amendment the
code forces on the spec's `portrait`/`badge`). -/
def graphicsRouteSpec (userDir : FPath) (displayName : String) : FPath :=
  let n := strLower displayName
  if strContains n "kit" then userDir ++ ["graphics", "kits"]
  else if strContains n "face" || strContains n "portraits" then
    userDir ++ ["graphics", "faces"]
  else if strContains n "logo" || strContains n "badges" then
    userDir ++ ["graphics", "logos"]
  else userDir ++ ["graphics"]

/-- A mod name is skipped by `build_mod_index` without error: its directory
is missing from the store, or its `manifest.json` is absent. -/
def modSkippedB (mods : List (String × ModData)) (m : String) : Bool :=
  match mods.find? (fun e => e.1 == m) with
  | none => true
  | some md =>
      match md.2.mf with
      | .absent => true
      | _ => false

/-- A mod name whose directory exists but whose `manifest.json` content is
malformed. -/
def modMalformedB (mods : List (String × ModData)) (m : String) : Bool :=
  match mods.find? (fun e => e.1 == m) with
  | none => false
  | some md =>
      match md.2.mf with
      | .malformed => true
      | _ => false

/-! ### Generic helper lemmas -/

theorem contains_eq_mem (l : List String) (a : String) : l.contains a = true ↔ a ∈ l := by
  simp [List.contains]

/-! ### C3: effective apply order -/

/-- C3, counterexample.  The claim quantifies over every enabled list and
load-order list and asserts every enabled mod is applied exactly once; with
the duplicated load order `["A", "A"]` and `enabled = ["A"]`, the computed
order applies `A` twice. -/
theorem applyOrder_counterexample :
    ("A" ∈ ["A"]) ∧ (applyOrderList ["A"] ["A", "A"]).count "A" = 2 := by decide

/-- C3 (amended with duplicate-free `enabled` and `load_order`, the shape the
spec's set/priority-sequence data model intends): the effective order applies
each enabled mod exactly once and nothing else, and the spec's worked example
`enabled=[B,A]`, `load_order=[A,C]` yields `[A,B]`. -/
theorem applyOrder_amended (enabled order : List String)
    (he : enabled.Nodup) (ho : order.Nodup) :
    (∀ m ∈ enabled, (applyOrderList enabled order).count m = 1) ∧
    (∀ m, m ∉ enabled → (applyOrderList enabled order).count m = 0) ∧
    applyOrderList ["B", "A"] ["A", "C"] = ["A", "B"] := by
  refine ⟨?_, ?_, by decide⟩
  · intro m hm
    unfold applyOrderList
    rw [List.count_append]
    by_cases hmo : m ∈ order
    · have h1 : (order.filter (fun x => enabled.contains x)).count m = order.count m :=
        List.count_filter (by simpa [contains_eq_mem] using hm)
      have h2 : (enabled.filter (fun x => !(order.contains x))).count m = 0 := by
        rw [List.count_eq_zero]
        intro hmem
        have hpred := List.of_mem_filter hmem
        simp [List.contains] at hpred
        exact hpred hmo
      rw [h1, h2, List.count_eq_one_of_mem ho hmo]
    · have h1 : (order.filter (fun x => enabled.contains x)).count m = 0 := by
        rw [List.count_eq_zero]
        intro hmem
        exact hmo (List.mem_of_mem_filter hmem)
      have h2 : (enabled.filter (fun x => !(order.contains x))).count m = enabled.count m :=
        List.count_filter (by simp [List.contains, hmo])
      rw [h1, h2, List.count_eq_one_of_mem he hm]
  · intro m hm
    unfold applyOrderList
    rw [List.count_append]
    have h1 : (order.filter (fun x => enabled.contains x)).count m = 0 := by
      rw [List.count_eq_zero]
      intro hmem
      exact hm ((contains_eq_mem _ _).mp (List.of_mem_filter hmem))
    have h2 : (enabled.filter (fun x => !(order.contains x))).count m = 0 := by
      rw [List.count_eq_zero]
      intro hmem
      exact hm (List.mem_of_mem_filter hmem)
    rw [h1, h2]

/-- C3 witness: the amended theorem applied at `enabled=[B,A]`,
`load_order=[A,C]`. -/
theorem applyOrder_amended_witness :
    (∀ m ∈ ["B", "A"], (applyOrderList ["B", "A"] ["A", "C"]).count m = 1) ∧
    (∀ m, m ∉ ["B", "A"] → (applyOrderList ["B", "A"] ["A", "C"]).count m = 0) ∧
    applyOrderList ["B", "A"] ["A", "C"] = ["A", "B"] :=
  applyOrder_amended ["B", "A"] ["A", "C"] (by decide) (by decide)

/-! ### C9: self-cleaning working-set accessors -/

/-- C9: every name `get_enabled_mods` / `get_load_order` returns exists in
the mod store, and the configuration they leave behind stores exactly the
filtered list (it is written back whenever stale names were dropped, and was
already equal otherwise). -/
theorem working_set_self_cleaning (existsOnDisk : String → Bool) (cfg : Config) :
    (∀ m ∈ (get_enabled_mods existsOnDisk cfg).1, existsOnDisk m = true) ∧
    ((get_enabled_mods existsOnDisk cfg).2.enabled_mods =
      (get_enabled_mods existsOnDisk cfg).1) ∧
    (∀ m ∈ (get_load_order existsOnDisk cfg).1, existsOnDisk m = true) ∧
    ((get_load_order existsOnDisk cfg).2.load_order =
      (get_load_order existsOnDisk cfg).1) := by
  refine ⟨?_, ?_, ?_, ?_⟩
  · intro m hm
    have hmem : m ∈ cfg.enabled_mods.filter existsOnDisk := by
      revert hm; unfold get_enabled_mods; split <;> exact id
    exact List.of_mem_filter hmem
  · unfold get_enabled_mods
    split
    · rfl
    next h =>
      exact ((List.filter_sublist _).eq_of_length (not_ne_iff.mp h)).symm
  · intro m hm
    have hmem : m ∈ cfg.load_order.filter existsOnDisk := by
      revert hm; unfold get_load_order; split <;> exact id
    exact List.of_mem_filter hmem
  · unfold get_load_order
    split
    · rfl
    next h =>
      exact ((List.filter_sublist _).eq_of_length (not_ne_iff.mp h)).symm

/-! ### C10: disable leaves directory targets in place -/

/-- C10: in the `disable_mod` loop, an entry whose resolved target exists as
a directory (and not as a file) only increments the error counter: the
unlink raises, the directory and all its contents stay, and nothing is
removed or restored. -/
theorem disable_dir_target_errors (bks : BStore) (base : FPath) (st : DisResult)
    (e : FileEntry) (trel : FPath)
    (htgt : e.target_subpath = some trel)
    (hdir : st.fs.isDir (base ++ trel) = true)
    (hfile : st.fs.isFile (base ++ trel) = false) :
    disableStep bks base st e = { st with errors := st.errors + 1 } := by
  unfold disableStep
  rw [htgt]
  simp [FS.pathExists, hdir, hfile]

/-- C10 witness: a directory target `d` (containing `d/x`) survives a
disable step untouched, with one error counted. -/
theorem disable_dir_target_errors_witness :
    disableStep [] [] ⟨⟨[(["d", "x"], ⟨[3], 0⟩)], []⟩, 0, 0, 0, 0, 0⟩ ⟨"", none, some ["d"]⟩
      = ⟨⟨[(["d", "x"], ⟨[3], 0⟩)], []⟩, 0, 0, 0, 0, 1⟩ :=
  disable_dir_target_errors [] [] ⟨⟨[(["d", "x"], ⟨[3], 0⟩)], []⟩, 0, 0, 0, 0, 0⟩
    ⟨"", none, some ["d"]⟩ ["d"] rfl (by decide) (by decide)

/-! ### C8: platform filtering -/

/-- C8: a file entry tagged for the other platform is skipped whole by the
`enable_mod` loop (nothing copied, `wrote` unchanged, only `skipped`
counted), and contributes no key to the conflict index built for the running
platform. -/
theorem platform_filter_skips (modFS : FS) (plat : String) (base : FPath)
    (st : EnResult) (e : FileEntry) (idx : ModIndex) (m : String)
    (hp : e.platform = "mac" ∨ e.platform = "windows")
    (hne : e.platform ≠ plat) :
    enableStep modFS plat base st e = { st with skipped := st.skipped + 1 } ∧
    indexAddEntry plat m idx e = idx := by
  have hval : strLower (strTrim e.platform) = e.platform := by
    rcases hp with h | h <;> rw [h] <;> decide
  have h1 : (strLower (strTrim e.platform) != "") = true := by
    rw [hval]; rcases hp with h | h <;> rw [h] <;> decide
  have h2 : (strLower (strTrim e.platform) != plat) = true := by
    rw [hval]; exact bne_iff_ne.mpr hne
  have h1r : (e.platform != "") = true := by
    rcases hp with h | h <;> rw [h] <;> decide
  have h2r : (e.platform != plat) = true := bne_iff_ne.mpr hne
  constructor
  · unfold enableStep
    simp [h1, h2]
  · unfold indexAddEntry
    simp [h1r, h2r]

/-- C8 witness: a `windows`-tagged entry on a `mac` host. -/
theorem platform_filter_skips_witness :
    enableStep ⟨[], []⟩ "mac" [] ⟨⟨[], []⟩, [], 0, 0, 0, 0⟩ ⟨"windows", some ["s"], some ["t"]⟩
        = ⟨⟨[], []⟩, [], 0, 1, 0, 0⟩ ∧
    indexAddEntry "mac" "M" [] ⟨"windows", some ["s"], some ["t"]⟩ = [] :=
  platform_filter_skips ⟨[], []⟩ "mac" [] ⟨⟨[], []⟩, [], 0, 0, 0, 0⟩
    ⟨"windows", some ["s"], some ["t"]⟩ [] "M" (Or.inr rfl) (by decide)

/-! ### C6: graphics sub-routing -/

/-- C6 counterexample: the claim says a name containing `portrait` routes to
`graphics/faces`, but the code only matches the plural `portraits`; the name
`Player Portrait` contains `portrait` yet routes to the graphics root. -/
theorem graphics_route_counterexample :
    strContains (strLower "Player Portrait") "portrait" = true ∧
    routeBase (get_target_for_type ⟨[], []⟩ ["u"] none "graphics" "Player Portrait")
      = some (some ["u", "graphics"]) ∧
    strContains (strLower "Cool Badge") "badge" = true ∧
    routeBase (get_target_for_type ⟨[], []⟩ ["u"] none "graphics" "Cool Badge")
      = some (some ["u", "graphics"]) := by decide

/-- C6 (amended: the face trigger is `face` or the plural `portraits`, and
the logo trigger is `logo` or the plural `badges`): whenever the router
returns a root for a graphics mod without an override, that root is exactly
the one the (amended) spec routing table assigns. -/
theorem graphics_routing_amended (fs : FS) (userDir : FPath) (tc : Option FPath)
    (name : String) (b : Option FPath) (fs' : FS)
    (h : get_target_for_type fs userDir tc "graphics" name = .ok b fs') :
    b = some (graphicsRouteSpec userDir name) := by
  have hspec : graphicsRouteSpec userDir name = graphicsSub userDir (strLower name) := rfl
  unfold get_target_for_type at h
  rw [show (strLower "graphics" == "ui" || strLower "graphics" == "bundle") = false by decide,
      show (strLower "graphics" == "tactics") = false by decide,
      show (strLower "graphics" == "graphics") = true by decide] at h
  simp only [Bool.false_eq_true, if_false, if_true] at h
  rcases h1 : mkdirParents fs (userDir ++ ["graphics"]) with _ | fs1
  · rw [h1] at h; cases h
  · rw [h1] at h
    dsimp only at h
    rcases h2 : mkdirParents fs1 (graphicsSub userDir (strLower name)) with _ | fs2
    · rw [h2] at h; cases h
    · rw [h2] at h
      cases h
      rw [hspec]

/-- C6 witness: a kit pack routes to `graphics/kits` as the table says. -/
theorem graphics_routing_amended_witness :
    (some ["u", "graphics", "kits"] : Option FPath)
      = some (graphicsRouteSpec ["u"] "Super Kit Pack") :=
  graphics_routing_amended ⟨[], []⟩ ["u"] none "Super Kit Pack"
    (some ["u", "graphics", "kits"])
    ⟨[], [["u", "graphics"], ["u", "graphics", "kits"]]⟩ (by decide)

/-! ### C5: index skips absent manifests, fails on malformed ones -/

/-- C5 counterexample: one malformed manifest fails the whole
`build_mod_index` call with a parse error instead of being silently
excluded; the same call without the malformed mod returns the index over
the remaining mods. -/
theorem index_malformed_counterexample :
    build_mod_index
      [("A", ⟨.ok ⟨none, none, none, some [⟨"", some ["s"], some ["t"]⟩]⟩, ⟨[], []⟩⟩),
       ("B", ⟨.malformed, ⟨[], []⟩⟩)]
      ["A", "B"] "mac" = .error () ∧
    build_mod_index
      [("A", ⟨.ok ⟨none, none, none, some [⟨"", some ["s"], some ["t"]⟩]⟩, ⟨[], []⟩⟩),
       ("B", ⟨.malformed, ⟨[], []⟩⟩)]
      ["A"] "mac" = .ok [(["t"], ["A"])] := by decide

theorem indexStep_skipped (mods : List (String × ModData)) (plat : String)
    (m : String) (hm : modSkippedB mods m = true) (acc : Except Unit ModIndex) :
    indexStep mods plat acc m = acc := by
  unfold modSkippedB at hm
  unfold indexStep
  cases acc with
  | error e => rfl
  | ok idx =>
      rcases hf : mods.find? (fun e => e.1 == m) with _ | md
      · rw [hf]
      · rw [hf] at hm ⊢
        dsimp only at hm ⊢
        cases hmf : md.2.mf with
        | absent => rfl
        | malformed => rw [hmf] at hm; exact Bool.noConfusion hm
        | ok raw => rw [hmf] at hm; exact Bool.noConfusion hm

theorem indexFold_error (mods : List (String × ModData)) (plat : String)
    (names : List String) :
    names.foldl (indexStep mods plat) (.error ()) = .error () := by
  induction names with
  | nil => rfl
  | cons x xs ih => exact ih

theorem indexFold_malformed (mods : List (String × ModData)) (plat : String)
    (names : List String) (m : String) (hmem : m ∈ names)
    (hm : modMalformedB mods m = true) :
    ∀ acc, names.foldl (indexStep mods plat) acc = .error () := by
  induction names with
  | nil => cases hmem
  | cons x xs ih =>
      intro acc
      rcases List.mem_cons.mp hmem with rfl | hmem'
      · have hstep : indexStep mods plat acc m = .error () ∨
            indexStep mods plat acc m = acc ∧ acc = .error () := by
          unfold modMalformedB at hm
          unfold indexStep
          cases acc with
          | error e => right; exact ⟨rfl, rfl⟩
          | ok idx =>
              left
              rcases hf : mods.find? (fun e => e.1 == m) with _ | md
              · rw [hf] at hm; cases hm
              · rw [hf] at hm ⊢
                dsimp only at hm ⊢
                cases hmf : md.2.mf with
                | absent => rw [hmf] at hm; exact Bool.noConfusion hm
                | malformed => rfl
                | ok raw => rw [hmf] at hm; exact Bool.noConfusion hm
        rcases hstep with hstep | ⟨hstep, rfl⟩
        · rw [List.foldl_cons, hstep, indexFold_error]
        · rw [List.foldl_cons, hstep, indexFold_error]
      · rw [List.foldl_cons]
        exact ih hmem' _

/-- C5 (amended): `build_mod_index` silently excludes a mod whose directory
or manifest *file* is missing (the index over the remaining names is
unchanged), but a mod whose manifest *content* is malformed raises a parse
error that fails the whole index. -/
theorem index_exclusion_amended (mods : List (String × ModData)) (plat : String) :
    (∀ pre post m, modSkippedB mods m = true →
       build_mod_index mods (pre ++ m :: post) plat
         = build_mod_index mods (pre ++ post) plat) ∧
    (∀ names m, m ∈ names → modMalformedB mods m = true →
       build_mod_index mods names plat = .error ()) := by
  constructor
  · intro pre post m hm
    unfold build_mod_index
    rw [List.foldl_append, List.foldl_append, List.foldl_cons,
        indexStep_skipped mods plat m hm]
  · intro names m hmem hm
    unfold build_mod_index
    rw [indexFold_malformed mods plat names m hmem hm]
    rfl

/-- C5 witness: dropping an absent-manifest mod from the name list changes
nothing, and a malformed manifest in the name list fails the index. -/
theorem index_exclusion_amended_witness :
    (build_mod_index
        [("A", ⟨.ok ⟨none, none, none, some [⟨"", some ["s"], some ["t"]⟩]⟩, ⟨[], []⟩⟩),
         ("B", ⟨.absent, ⟨[], []⟩⟩)]
        ([] ++ "B" :: ["A"]) "mac"
      = build_mod_index
        [("A", ⟨.ok ⟨none, none, none, some [⟨"", some ["s"], some ["t"]⟩]⟩, ⟨[], []⟩⟩),
         ("B", ⟨.absent, ⟨[], []⟩⟩)]
        ([] ++ ["A"]) "mac") ∧
    build_mod_index
        [("C", ⟨.malformed, ⟨[], []⟩⟩)] ["C"] "mac" = .error () :=
  ⟨(index_exclusion_amended
      [("A", ⟨.ok ⟨none, none, none, some [⟨"", some ["s"], some ["t"]⟩]⟩, ⟨[], []⟩⟩),
       ("B", ⟨.absent, ⟨[], []⟩⟩)] "mac").1 [] ["A"] "B" (by decide),
   (index_exclusion_amended [("C", ⟨.malformed, ⟨[], []⟩⟩)] "mac").2 ["C"] "C"
     (by decide) (by decide)⟩

/-! ### C4: precondition errors and side effects -/

theorem files_mkdirP (fs : FS) (p : FPath) : (fs.mkdirP p).files = fs.files := by
  unfold FS.mkdirP; split <;> rfl

theorem dirs_insertFile (fs : FS) (p : FPath) (c : FSFile) :
    (fs.insertFile p c).dirs = fs.dirs := rfl

theorem mkdirParents_files {fs fs' : FS} {p : FPath} (h : mkdirParents fs p = some fs') :
    fs'.files = fs.files := by
  unfold mkdirParents at h
  split at h
  · cases h
  · cases h; exact files_mkdirP fs p

/-- Filesystem projection of a routing result. -/
def routeFS : RouteResult → FS
  | .ok _ f => f
  | .raised f => f

/-- The target router only ever creates directories: the file map is
untouched on every branch, raised or not. -/
theorem get_target_files (fs : FS) (userDir : FPath) (tc : Option FPath) (mt mn : String) :
    (routeFS (get_target_for_type fs userDir tc mt mn)).files = fs.files := by
  unfold get_target_for_type
  by_cases h1 : (strLower mt == "ui" || strLower mt == "bundle") = true
  · simp only [h1, eq_self_iff_true, if_true]; rfl
  rw [Bool.not_eq_true] at h1
  simp only [h1, Bool.false_eq_true, if_false]
  by_cases h2 : (strLower mt == "tactics") = true
  · simp only [h2, eq_self_iff_true, if_true]
    rcases h : mkdirParents fs (userDir ++ ["tactics"]) with _ | fs1 <;> dsimp only
    · rfl
    · exact mkdirParents_files h
  rw [Bool.not_eq_true] at h2
  simp only [h2, Bool.false_eq_true, if_false]
  by_cases h3 : (strLower mt == "graphics") = true
  · simp only [h3, eq_self_iff_true, if_true]
    rcases hg : mkdirParents fs (userDir ++ ["graphics"]) with _ | fs1 <;> dsimp only
    · rfl
    · rcases hg2 : mkdirParents fs1 (graphicsSub userDir (strLower mn)) with _ | fs2 <;>
        dsimp only
      · exact mkdirParents_files hg
      · exact (mkdirParents_files hg2).trans (mkdirParents_files hg)
  rw [Bool.not_eq_true] at h3
  simp only [h3, Bool.false_eq_true, if_false]
  rcases h : mkdirParents fs userDir with _ | fs1 <;> dsimp only
  · rfl
  · exact mkdirParents_files h

theorem resolveRoute_files (w : World) (mf : Manifest) :
    (routeFS (resolveRoute w mf)).files = w.fs.files := by
  unfold resolveRoute
  rcases hip : mf.install_path with _ | p <;> dsimp only
  · exact get_target_files w.fs w.userDir w.targetCfg _ mf.name
  · rfl

theorem after_files {u : FPath} {fs1 fs2 : FS} {base : FPath}
    (h : (if !(fs1.pathExists base) then
            (if u.isPrefixOf base then mkdirParents fs1 base else none)
          else some fs1) = some fs2) :
    fs2.files = fs1.files := by
  split at h
  · split at h
    · exact mkdirParents_files h
    · cases h
  · cases h; rfl

/-- C4 counterexample world: a tactics mod `T` declaring an empty `files`
list, with no tactics directory existing yet. -/
def exW4 : World :=
  ⟨[("T", ⟨.ok ⟨none, some "tactics", none, some []⟩, ⟨[], []⟩⟩)], none, ["u"], "mac",
   ⟨[], []⟩, []⟩

/-- C4 counterexample: enabling `T` fails with the empty-files precondition
error, yet the user-data `tactics` directory — absent beforehand — exists
afterwards: the router created a directory before the error surfaced. -/
theorem enable_precondition_counterexample :
    (enable_mod exW4 "T").2 = .error .noFiles ∧
    exW4.fs.pathExists ["u", "tactics"] = false ∧
    (enable_mod exW4 "T").1.fs.pathExists ["u", "tactics"] = true := by decide

/-- C4 (amended): when `enable_mod` raises any of its precondition errors,
it does so before any file entry is processed, and no file is written and no
backup is taken — the file map and the backup store are exactly as before —
though the router may already have created directories. -/
theorem enable_precondition_no_file_side_effects (w : World) (m : String) (err : EnErr)
    (h : (enable_mod w m).2 = .error err) :
    (enable_mod w m).1.fs.files = w.fs.files ∧ (enable_mod w m).1.bks = w.bks := by
  unfold enable_mod at h ⊢
  rcases hf : w.mods.find? (fun e => e.1 == m) with _ | md
  · rw [hf]; exact ⟨rfl, rfl⟩
  rw [hf] at h ⊢
  dsimp only at h ⊢
  cases hmf : md.2.mf with
  | absent => exact ⟨rfl, rfl⟩
  | malformed => exact ⟨rfl, rfl⟩
  | ok raw =>
      rw [hmf] at h
      dsimp only at h ⊢
      have hrfs := resolveRoute_files w (read_manifest m raw)
      cases hr : resolveRoute w (read_manifest m raw) with
      | raised fs1 =>
          rw [hr] at h hrfs
          dsimp only [routeFS] at h hrfs ⊢
          exact ⟨hrfs, rfl⟩
      | ok b fs1 =>
          rw [hr] at h hrfs
          dsimp only [routeFS] at h hrfs ⊢
          cases b with
          | none => exact ⟨hrfs, rfl⟩
          | some base =>
              dsimp only at h ⊢
              unfold enableWithBase at h ⊢
              dsimp only at h ⊢
              rcases hafter : (if !(fs1.pathExists base) then
                  (if w.userDir.isPrefixOf base then mkdirParents fs1 base else none)
                else some fs1) with _ | fs2
              · rw [hafter] at h
                dsimp only at h ⊢
                exact ⟨hrfs, rfl⟩
              · rw [hafter] at h
                dsimp only at h ⊢
                by_cases hemp : (read_manifest m raw).files.isEmpty = true
                · simp only [hemp, eq_self_iff_true, if_true] at h ⊢
                  exact ⟨(after_files hafter).trans hrfs, by trivial⟩
                · rw [Bool.not_eq_true] at hemp
                  simp only [hemp, Bool.false_eq_true, if_false] at h
                  exact Except.noConfusion h

/-- C4 witness: the amended theorem at the counterexample world. -/
theorem enable_precondition_witness :
    (enable_mod exW4 "T").1.fs.files = exW4.fs.files ∧
    (enable_mod exW4 "T").1.bks = exW4.bks :=
  enable_precondition_no_file_side_effects exW4 "T" .noFiles (by decide)

/-! ### Pointwise filesystem lemmas -/

theorem strictPrefixB_iff {p q : FPath} : strictPrefixB p q = true ↔ p <+: q ∧ p ≠ q := by
  simp [strictPrefixB, List.isPrefixOf_iff_prefix, bne_iff_ne]

theorem strictPrefixB_irrefl (p : FPath) : strictPrefixB p p = false := by
  simp [strictPrefixB]

theorem find?_filter_ne (l : List (FPath × FSFile)) (p q : FPath) (hne : q ≠ p) :
    (l.filter (fun e => e.1 != p)).find? (fun e => e.1 == q)
      = l.find? (fun e => e.1 == q) := by
  induction l with
  | nil => rfl
  | cons e l ih =>
      by_cases hep : e.1 = p
      · have h2 : (p == q) = false := beq_eq_false_iff_ne.mpr (Ne.symm hne)
        simp [List.filter_cons, List.find?_cons, hep, h2, ih]
      · by_cases heq : e.1 = q
        · simp [List.filter_cons, List.find?_cons, bne_iff_ne.mpr hep,
            beq_iff_eq.mpr heq]
        · simp [List.filter_cons, List.find?_cons, bne_iff_ne.mpr hep,
            beq_eq_false_iff_ne.mpr heq, ih]

theorem lookup_insertFile (fs : FS) (p : FPath) (c : FSFile) (q : FPath) :
    (fs.insertFile p c).lookup q = if q = p then some c else fs.lookup q := by
  unfold FS.insertFile FS.lookup
  by_cases hq : q = p
  · subst hq
    simp [List.find?_cons, beq_iff_eq]
  · have h2 : (p == q) = false := beq_eq_false_iff_ne.mpr (fun h => hq h.symm)
    simp only [List.find?_cons, h2, if_neg hq]
    rw [find?_filter_ne _ _ _ hq]

theorem lookup_removeFile (fs : FS) (p : FPath) (q : FPath) :
    (fs.removeFile p).lookup q = if q = p then none else fs.lookup q := by
  unfold FS.removeFile FS.lookup
  by_cases hq : q = p
  · subst hq
    rw [if_pos rfl, List.find?_eq_none.mpr]
    · rfl
    · intro e he hbeq
      have hmem := List.of_mem_filter he
      rw [beq_iff_eq] at hbeq
      simp [hbeq] at hmem
  · rw [if_neg hq]
    rw [find?_filter_ne _ _ _ hq]

theorem lookup_mkdirP (fs : FS) (d : FPath) (q : FPath) :
    (fs.mkdirP d).lookup q = fs.lookup q := by
  unfold FS.lookup
  rw [files_mkdirP]

theorem isFile_insertFile (fs : FS) (p : FPath) (c : FSFile) (q : FPath) :
    (fs.insertFile p c).isFile q = if q = p then true else fs.isFile q := by
  unfold FS.isFile
  rw [lookup_insertFile]
  by_cases hq : q = p <;> simp [hq]

theorem isFile_removeFile (fs : FS) (p : FPath) (q : FPath) :
    (fs.removeFile p).isFile q = if q = p then false else fs.isFile q := by
  unfold FS.isFile
  rw [lookup_removeFile]
  by_cases hq : q = p <;> simp [hq]

theorem isFile_mkdirP (fs : FS) (d : FPath) (q : FPath) :
    (fs.mkdirP d).isFile q = fs.isFile q := by
  unfold FS.isFile
  rw [lookup_mkdirP]

theorem dirs_mkdirP_mem {fs : FS} {d x : FPath} (h : x ∈ (fs.mkdirP d).dirs) :
    x ∈ fs.dirs ∨ x = d := by
  unfold FS.mkdirP at h
  split at h
  · exact Or.inl h
  · rcases List.mem_append.mp h with h' | h'
    · exact Or.inl h'
    · exact Or.inr (List.mem_singleton.mp h')

theorem dirs_mkdirP_of {fs : FS} {d x : FPath} (h : x ∈ fs.dirs) : x ∈ (fs.mkdirP d).dirs := by
  unfold FS.mkdirP
  split
  · exact h
  · exact List.mem_append.mpr (Or.inl h)

theorem mem_files_insertFile {fs : FS} {p : FPath} {c : FSFile} {e : FPath × FSFile} :
    e ∈ (fs.insertFile p c).files ↔ e = (p, c) ∨ (e ∈ fs.files ∧ e.1 ≠ p) := by
  unfold FS.insertFile
  simp [List.mem_filter, bne_iff_ne]

theorem mem_files_removeFile {fs : FS} {p : FPath} {e : FPath × FSFile} :
    e ∈ (fs.removeFile p).files ↔ e ∈ fs.files ∧ e.1 ≠ p := by
  unfold FS.removeFile
  simp [List.mem_filter, bne_iff_ne]

theorem isDir_iff {fs : FS} {p : FPath} :
    fs.isDir p = true ↔
      (∃ d ∈ fs.dirs, p = d ∨ strictPrefixB p d = true) ∨
      ∃ e ∈ fs.files, strictPrefixB p e.1 = true := by
  simp [FS.isDir, List.any_eq_true, beq_iff_eq]

theorem hasFSA_iff {fs : FS} {p : FPath} :
    fs.hasFileStrictAncestor p = true ↔ ∃ e ∈ fs.files, strictPrefixB e.1 p = true := by
  simp [FS.hasFileStrictAncestor, List.any_eq_true]

theorem isDir_insertFile_true {fs : FS} {p : FPath} {c : FSFile} {x : FPath}
    (h : (fs.insertFile p c).isDir x = true) :
    fs.isDir x = true ∨ strictPrefixB x p = true := by
  rcases isDir_iff.mp h with ⟨d, hd, hpd⟩ | ⟨e, he, hpe⟩
  · exact Or.inl (isDir_iff.mpr (Or.inl ⟨d, hd, hpd⟩))
  · rcases mem_files_insertFile.mp he with rfl | ⟨he', _⟩
    · exact Or.inr hpe
    · exact Or.inl (isDir_iff.mpr (Or.inr ⟨e, he', hpe⟩))

theorem isDir_insertFile_of {fs : FS} {p : FPath} {c : FSFile} {x : FPath}
    (h : fs.isDir x = true) : (fs.insertFile p c).isDir x = true := by
  rcases isDir_iff.mp h with ⟨d, hd, hpd⟩ | ⟨e, he, hpe⟩
  · exact isDir_iff.mpr (Or.inl ⟨d, hd, hpd⟩)
  · by_cases hep : e.1 = p
    · exact isDir_iff.mpr (Or.inr ⟨(p, c), mem_files_insertFile.mpr (Or.inl rfl),
        by rw [← hep]; exact hpe⟩)
    · exact isDir_iff.mpr (Or.inr ⟨e, mem_files_insertFile.mpr (Or.inr ⟨he, hep⟩), hpe⟩)

theorem isDir_removeFile_true {fs : FS} {p : FPath} {x : FPath}
    (h : (fs.removeFile p).isDir x = true) : fs.isDir x = true := by
  rcases isDir_iff.mp h with ⟨d, hd, hpd⟩ | ⟨e, he, hpe⟩
  · exact isDir_iff.mpr (Or.inl ⟨d, hd, hpd⟩)
  · exact isDir_iff.mpr (Or.inr ⟨e, (mem_files_removeFile.mp he).1, hpe⟩)

theorem isDir_mkdirP_true {fs : FS} {d : FPath} {x : FPath}
    (h : (fs.mkdirP d).isDir x = true) :
    fs.isDir x = true ∨ x = d ∨ strictPrefixB x d = true := by
  rcases isDir_iff.mp h with ⟨d', hd', hpd'⟩ | ⟨e, he, hpe⟩
  · rcases dirs_mkdirP_mem hd' with hmem | rfl
    · exact Or.inl (isDir_iff.mpr (Or.inl ⟨d', hmem, hpd'⟩))
    · exact Or.inr hpd'
  · rw [files_mkdirP] at he
    exact Or.inl (isDir_iff.mpr (Or.inr ⟨e, he, hpe⟩))

theorem isDir_mkdirP_of {fs : FS} {d : FPath} {x : FPath}
    (h : fs.isDir x = true) : (fs.mkdirP d).isDir x = true := by
  rcases isDir_iff.mp h with ⟨d', hd', hpd'⟩ | ⟨e, he, hpe⟩
  · exact isDir_iff.mpr (Or.inl ⟨d', dirs_mkdirP_of hd', hpd'⟩)
  · exact isDir_iff.mpr (Or.inr ⟨e, by rw [files_mkdirP]; exact he, hpe⟩)

theorem hasFSA_insertFile_true {fs : FS} {p : FPath} {c : FSFile} {x : FPath}
    (h : (fs.insertFile p c).hasFileStrictAncestor x = true) :
    fs.hasFileStrictAncestor x = true ∨ strictPrefixB p x = true := by
  rcases hasFSA_iff.mp h with ⟨e, he, hpe⟩
  rcases mem_files_insertFile.mp he with rfl | ⟨he', _⟩
  · exact Or.inr hpe
  · exact Or.inl (hasFSA_iff.mpr ⟨e, he', hpe⟩)

theorem hasFSA_removeFile_true {fs : FS} {p : FPath} {x : FPath}
    (h : (fs.removeFile p).hasFileStrictAncestor x = true) :
    fs.hasFileStrictAncestor x = true := by
  rcases hasFSA_iff.mp h with ⟨e, he, hpe⟩
  exact hasFSA_iff.mpr ⟨e, (mem_files_removeFile.mp he).1, hpe⟩

theorem hasFSA_mkdirP (fs : FS) (d : FPath) (x : FPath) :
    (fs.mkdirP d).hasFileStrictAncestor x = fs.hasFileStrictAncestor x := by
  unfold FS.hasFileStrictAncestor
  rw [files_mkdirP]

theorem lookup_isFile_some {fs : FS} {q : FPath} (h : fs.isFile q = true) :
    ∃ c, fs.lookup q = some c := by
  unfold FS.isFile at h
  exact Option.isSome_iff_exists.mp h

theorem lookup_none_of_not_isFile {fs : FS} {q : FPath} (h : fs.isFile q = false) :
    fs.lookup q = none := by
  unfold FS.isFile at h
  rcases hl : fs.lookup q with _ | c
  · rfl
  · rw [hl] at h; cases h

theorem strictPrefixB_of (x y : FPath) (h : x <+: y) (hne : x ≠ y) :
    strictPrefixB x y = true := strictPrefixB_iff.mpr ⟨h, hne⟩

theorem dropLast_strictPrefixB (t : FPath) (ht : t ≠ []) :
    strictPrefixB t.dropLast t = true := by
  refine strictPrefixB_of _ _ (List.dropLast_prefix t) ?_
  intro h
  have hlen := congrArg List.length h
  rw [List.length_dropLast] at hlen
  have hpos : 0 < t.length := List.length_pos.mpr ht
  omega

theorem strictPrefixB_trans_prefix {x d t : FPath} (h1 : x <+: d)
    (h2 : strictPrefixB d t = true) : strictPrefixB x t = true := by
  obtain ⟨hd, hne⟩ := strictPrefixB_iff.mp h2
  refine strictPrefixB_of _ _ (h1.trans hd) ?_
  rintro rfl
  have hxd : x.length ≤ d.length := h1.length_le
  have hdx : d.length ≤ x.length := hd.length_le
  exact hne (hd.eq_of_length (by omega))

/-! ### Enable-loop characterisation -/

/-- A file entry that is fully valid for `enable_mod`: not platform-filtered,
both fields present and non-empty, and its source is a plain existing file of
the mod. -/
def entryValidB (modFS : FS) (plat : String) (e : FileEntry) : Bool :=
  (strLower (strTrim e.platform) == "" || strLower (strTrim e.platform) == plat) &&
  (match e.source, e.target_subpath with
   | some s, some t => modFS.isFile s && !(modFS.isDir s) && !(t.isEmpty)
   | _, _ => false)

/-- The resolved target of an entry is currently writable in `fs`: not an
existing directory and not below an existing file. -/
def targetFreeB (fs : FS) (base : FPath) (e : FileEntry) : Bool :=
  match e.target_subpath with
  | some t => !(fs.isDir (base ++ t)) && !(fs.hasFileStrictAncestor (base ++ t))
  | none => false

/-- Neither entry's resolved target is a strict ancestor of the other's. -/
def pairTargetsOkB (base : FPath) (e e' : FileEntry) : Bool :=
  match e.target_subpath, e'.target_subpath with
  | some t, some t' => !(strictPrefixB (base ++ t) (base ++ t'))
  | _, _ => true

theorem entryValidB_spec {modFS : FS} {plat : String} {e : FileEntry}
    (h : entryValidB modFS plat e = true) :
    (strLower (strTrim e.platform) = "" ∨ strLower (strTrim e.platform) = plat) ∧
    ∃ s t, e.source = some s ∧ e.target_subpath = some t ∧
      modFS.isFile s = true ∧ modFS.isDir s = false ∧ t ≠ [] := by
  unfold entryValidB at h
  rw [Bool.and_eq_true] at h
  obtain ⟨h1, h2⟩ := h
  refine ⟨?_, ?_⟩
  · simp only [Bool.or_eq_true, beq_iff_eq] at h1
    exact h1
  · rcases hs : e.source with _ | s <;> rcases ht : e.target_subpath with _ | t <;>
      rw [hs, ht] at h2
    · exact Bool.noConfusion h2
    · exact Bool.noConfusion h2
    · exact Bool.noConfusion h2
    · dsimp only at h2
      rw [Bool.and_eq_true, Bool.and_eq_true] at h2
      obtain ⟨⟨hf, hd⟩, hne⟩ := h2
      refine ⟨s, t, rfl, rfl, hf, by simpa using hd, ?_⟩
      simpa using hne

theorem targetFreeB_spec {fs : FS} {base : FPath} {e : FileEntry} {t : FPath}
    (h : targetFreeB fs base e = true) (ht : e.target_subpath = some t) :
    fs.isDir (base ++ t) = false ∧ fs.hasFileStrictAncestor (base ++ t) = false := by
  unfold targetFreeB at h
  rw [ht] at h
  dsimp only at h
  rw [Bool.and_eq_true] at h
  exact ⟨by simpa using h.1, by simpa using h.2⟩

theorem targetFreeB_mk {fs : FS} {base : FPath} {e : FileEntry} {t : FPath}
    (ht : e.target_subpath = some t)
    (h1 : fs.isDir (base ++ t) = false) (h2 : fs.hasFileStrictAncestor (base ++ t) = false) :
    targetFreeB fs base e = true := by
  unfold targetFreeB
  rw [ht]
  dsimp only
  rw [Bool.and_eq_true]
  exact ⟨by simp [h1], by simp [h2]⟩

theorem pairTargetsOkB_spec {base : FPath} {e e' : FileEntry} {t t' : FPath}
    (h : pairTargetsOkB base e e' = true)
    (ht : e.target_subpath = some t) (ht' : e'.target_subpath = some t') :
    strictPrefixB (base ++ t) (base ++ t') = false := by
  unfold pairTargetsOkB at h
  rw [ht, ht'] at h
  dsimp only at h
  simpa using h

/-- A fully valid entry whose target is writable performs exactly one write:
backup when the target is an existing file, then the copy, incrementing
`wrote` by one. -/
theorem enableStep_ok (modFS : FS) (plat : String) (base : FPath) (st : EnResult)
    (e : FileEntry) (s t : FPath) (c : FSFile)
    (hplat : strLower (strTrim e.platform) = "" ∨ strLower (strTrim e.platform) = plat)
    (hsrc : e.source = some s) (htsp : e.target_subpath = some t)
    (hlook : modFS.lookup s = some c) (hsdir : modFS.isDir s = false)
    (hdir : st.fs.isDir (base ++ t) = false)
    (hanc : st.fs.hasFileStrictAncestor (base ++ t) = false) :
    enableStep modFS plat base st e =
      { st with
        fs := (st.fs.mkdirP (base ++ t).dropLast).insertFile (base ++ t) c,
        bks := if st.fs.isFile (base ++ t) then
                 backup_original st.fs st.bks (base ++ t) else st.bks,
        wrote := st.wrote + 1,
        backedUp := st.backedUp + (if st.fs.isFile (base ++ t) then 1 else 0) } := by
  have hskip : (strLower (strTrim e.platform) != ""
      && strLower (strTrim e.platform) != plat) = false := by
    rcases hplat with h | h <;> rw [h] <;> simp
  have hpe : (!(modFS.pathExists s)) = false := by
    simp [FS.pathExists, FS.isFile, hlook]
  have hcopy : copyAny modFS s st.fs (base ++ t) =
      ((st.fs.mkdirP (base ++ t).dropLast).insertFile (base ++ t) c, some 1) := by
    unfold copyAny
    rw [hsdir, hlook]
    simp only [Bool.false_eq_true, if_false]
    rw [hanc, hdir]
    simp
  simp only [enableStep, hskip, Bool.false_eq_true, if_false, hsrc, htsp]
  rw [hpe]
  simp only [Bool.false_eq_true, if_false, hcopy]

/-- Writing one entry's target keeps every other, prefix-unrelated target
writable. -/
theorem targetFree_preserved (fs : FS) (base : FPath) (t t' : FPath) (c : FSFile)
    (hte : t ≠ [])
    (hfree' : fs.isDir (base ++ t') = false)
    (hanc' : fs.hasFileStrictAncestor (base ++ t') = false)
    (hp1 : strictPrefixB (base ++ t') (base ++ t) = false)
    (hp2 : strictPrefixB (base ++ t) (base ++ t') = false) :
    ((fs.mkdirP (base ++ t).dropLast).insertFile (base ++ t) c).isDir (base ++ t') = false ∧
    ((fs.mkdirP (base ++ t).dropLast).insertFile (base ++ t) c).hasFileStrictAncestor
      (base ++ t') = false := by
  have htne : (base ++ t) ≠ [] := fun hh => hte (List.append_eq_nil.mp hh).2
  have hdl := dropLast_strictPrefixB (base ++ t) htne
  constructor
  · by_contra hcon
    rw [Bool.not_eq_false] at hcon
    rcases isDir_insertFile_true hcon with h | h
    · rcases isDir_mkdirP_true h with h | h | h
      · rw [hfree'] at h; exact Bool.noConfusion h
      · have hsp : strictPrefixB (base ++ t') (base ++ t) = true := by
          rw [h]; exact hdl
        rw [hp1] at hsp; exact Bool.noConfusion hsp
      · have hsp : strictPrefixB (base ++ t') (base ++ t) = true :=
          strictPrefixB_trans_prefix (strictPrefixB_iff.mp h).1 hdl
        rw [hp1] at hsp; exact Bool.noConfusion hsp
    · rw [hp1] at h; exact Bool.noConfusion h
  · by_contra hcon
    rw [Bool.not_eq_false] at hcon
    rcases hasFSA_insertFile_true hcon with h | h
    · rw [hasFSA_mkdirP, hanc'] at h; exact Bool.noConfusion h
    · rw [hp2] at h; exact Bool.noConfusion h

/-- The enable loop over valid entries with writable, prefix-unrelated
targets: every entry writes exactly once and no error is counted. -/
theorem enableEntries_go_valid (modFS : FS) (plat : String) (base : FPath) :
    ∀ (entries : List FileEntry) (st : EnResult),
      (∀ e ∈ entries, entryValidB modFS plat e = true) →
      (∀ e ∈ entries, targetFreeB st.fs base e = true) →
      (∀ e ∈ entries, ∀ e' ∈ entries, pairTargetsOkB base e e' = true) →
      (entries.foldl (enableStep modFS plat base) st).wrote = st.wrote + entries.length ∧
      (entries.foldl (enableStep modFS plat base) st).errors = st.errors := by
  intro entries
  induction entries with
  | nil => intro st _ _ _; exact ⟨by simp, rfl⟩
  | cons e rest ih =>
      intro st hval htgt hpair
      obtain ⟨hplat, s, t, hsrc, htsp, hsf, hsd, hte⟩ :=
        entryValidB_spec (hval e (List.mem_cons_self e rest))
      obtain ⟨c, hlook⟩ := lookup_isFile_some hsf
      obtain ⟨hdir, hanc⟩ := targetFreeB_spec (htgt e (List.mem_cons_self e rest)) htsp
      rw [List.foldl_cons,
        enableStep_ok modFS plat base st e s t c hplat hsrc htsp hlook hsd hdir hanc]
      have htgt' : ∀ e' ∈ rest,
          targetFreeB ((st.fs.mkdirP (base ++ t).dropLast).insertFile (base ++ t) c)
            base e' = true := by
        intro e' he'
        obtain ⟨_, s', t', _, htsp', _, _, _⟩ :=
          entryValidB_spec (hval e' (List.mem_cons_of_mem e he'))
        obtain ⟨hfree', hanc'⟩ :=
          targetFreeB_spec (htgt e' (List.mem_cons_of_mem e he')) htsp'
        have hp1 := pairTargetsOkB_spec
          (hpair e' (List.mem_cons_of_mem e he') e (List.mem_cons_self e rest)) htsp' htsp
        have hp2 := pairTargetsOkB_spec
          (hpair e (List.mem_cons_self e rest) e' (List.mem_cons_of_mem e he')) htsp htsp'
        obtain ⟨hh1, hh2⟩ := targetFree_preserved st.fs base t t' c hte hfree' hanc' hp1 hp2
        exact targetFreeB_mk htsp' hh1 hh2
      obtain ⟨hw, herr⟩ := ih
        { st with
          fs := (st.fs.mkdirP (base ++ t).dropLast).insertFile (base ++ t) c,
          bks := if st.fs.isFile (base ++ t) then
                   backup_original st.fs st.bks (base ++ t) else st.bks,
          wrote := st.wrote + 1,
          backedUp := st.backedUp + (if st.fs.isFile (base ++ t) then 1 else 0) }
        (fun e' he' => hval e' (List.mem_cons_of_mem e he'))
        htgt'
        (fun e1 h1 e2 h2 =>
          hpair e1 (List.mem_cons_of_mem e h1) e2 (List.mem_cons_of_mem e h2))
      refine ⟨?_, ?_⟩
      · rw [hw]; simp [List.length_cons]; omega
      · rw [herr]

/-- C7 counterexample: a single entry that is valid in the claim's sense
(source a plain existing file, both fields set, no platform filter), but
whose target currently exists as a directory: the copy raises, so
`wrote = 0` and `errors = 1`, not `wrote = N, errors = 0`. -/
theorem enable_wrote_counterexample :
    (⟨[(["s"], ⟨[1], 0⟩)], []⟩ : FS).isFile ["s"] = true ∧
    (⟨[(["s"], ⟨[1], 0⟩)], []⟩ : FS).isDir ["s"] = false ∧
    (enableEntries ⟨[(["s"], ⟨[1], 0⟩)], []⟩ "mac" [] [⟨"", some ["s"], some ["d"]⟩]
      ⟨[(["d", "x"], ⟨[3], 0⟩)], []⟩ []).wrote = 0 ∧
    (enableEntries ⟨[(["s"], ⟨[1], 0⟩)], []⟩ "mac" [] [⟨"", some ["s"], some ["d"]⟩]
      ⟨[(["d", "x"], ⟨[3], 0⟩)], []⟩ []).errors = 1 := by decide

/-- C7 (amended: additionally, no resolved target may currently exist as a
directory or lie below an existing file, and no two targets may be in a
strict ancestor relation — conditions under which every copy succeeds):
`enable_mod`'s loop over N valid file entries reports `wrote = N` and
`errors = 0`. -/
theorem enable_wrote_amended (modFS : FS) (plat : String) (base : FPath)
    (entries : List FileEntry) (fs : FS) (bks : BStore)
    (hval : ∀ e ∈ entries, entryValidB modFS plat e = true)
    (htgt : ∀ e ∈ entries, targetFreeB fs base e = true)
    (hpair : ∀ e ∈ entries, ∀ e' ∈ entries, pairTargetsOkB base e e' = true) :
    (enableEntries modFS plat base entries fs bks).wrote = entries.length ∧
    (enableEntries modFS plat base entries fs bks).errors = 0 := by
  have h := enableEntries_go_valid modFS plat base entries ⟨fs, bks, 0, 0, 0, 0⟩
    hval htgt hpair
  simpa [enableEntries] using h

/-- C7 witness: two valid entries into an empty tree write `wrote = 2`,
`errors = 0`. -/
theorem enable_wrote_amended_witness :
    (enableEntries ⟨[(["s1"], ⟨[1], 0⟩), (["s2"], ⟨[2], 7⟩)], []⟩ "mac" ["r"]
      [⟨"", some ["s1"], some ["a"]⟩, ⟨"", some ["s2"], some ["b", "c"]⟩]
      ⟨[], []⟩ []).wrote = 2 ∧
    (enableEntries ⟨[(["s1"], ⟨[1], 0⟩), (["s2"], ⟨[2], 7⟩)], []⟩ "mac" ["r"]
      [⟨"", some ["s1"], some ["a"]⟩, ⟨"", some ["s2"], some ["b", "c"]⟩]
      ⟨[], []⟩ []).errors = 0 := by
  have h := enable_wrote_amended ⟨[(["s1"], ⟨[1], 0⟩), (["s2"], ⟨[2], 7⟩)], []⟩ "mac" ["r"]
    [⟨"", some ["s1"], some ["a"]⟩, ⟨"", some ["s2"], some ["b", "c"]⟩]
    ⟨[], []⟩ [] (by decide) (by decide) (by decide)
  simpa using h

/-! ### Backup-store lemmas for the enable/disable round trip -/

theorem strIsPrefix_backupBaseName (t : FPath) :
    strIsPrefix (lastName t) (backupBaseName t) = true := by
  unfold strIsPrefix backupBaseName
  rw [List.isPrefixOf_iff_prefix]
  show (lastName t).toList <+: ((lastName t ++ "." ++ pathHash t ++ ".bak")).toList
  simp only [String.toList, String.data_append, List.append_assoc]
  exact List.prefix_append _ _

theorem freshBackupName_free {bs : BStore} {nm : String} (h : bHas bs nm = false) :
    freshBackupName bs nm = nm := by
  unfold freshBackupName
  rw [List.find?_cons_of_pos _ (by simp [h])]
  rfl

theorem backup_original_of_lookup {fs : FS} {bs : BStore} {t : FPath} {c : FSFile}
    (hl : fs.lookup t = some c) (hfree : bHas bs (backupBaseName t) = false) :
    backup_original fs bs t = bs ++ [(backupBaseName t, c)] := by
  unfold backup_original
  rw [hl, freshBackupName_free hfree]

theorem bHas_false_of_clear {bs : BStore} {t : FPath}
    (h : bs.all (fun b => !(strIsPrefix (lastName t) b.1)) = true) :
    bHas bs (backupBaseName t) = false := by
  by_contra hcon
  rw [Bool.not_eq_false] at hcon
  unfold bHas at hcon
  rw [List.any_eq_true] at hcon
  obtain ⟨b, hb, hbeq⟩ := hcon
  have hclear := List.all_eq_true.mp h b hb
  rw [beq_iff_eq.mp hbeq] at hclear
  rw [strIsPrefix_backupBaseName] at hclear
  exact Bool.noConfusion hclear

/-- `find_latest_backup_for_filename` over a store whose glob candidates are
empty returns nothing. -/
theorem find_latest_of_filter_nil {bs : BStore} {n : String}
    (h : bs.filter (fun e => strIsPrefix n e.1) = []) :
    find_latest_backup_for_filename bs n = none := by
  unfold find_latest_backup_for_filename
  rw [h]

/-- `find_latest_backup_for_filename` over a store with a single glob
candidate returns it. -/
theorem find_latest_of_filter_single {bs : BStore} {n : String} {b : String × FSFile}
    (h : bs.filter (fun e => strIsPrefix n e.1) = [b]) :
    find_latest_backup_for_filename bs n = some b := by
  unfold find_latest_backup_for_filename
  rw [h]
  rfl

/-- Both entries have targets and neither resolved target is a prefix
(proper or improper) of the other — in particular they differ. -/
def pairTargetsDistinctB (base : FPath) (e e' : FileEntry) : Bool :=
  match e.target_subpath, e'.target_subpath with
  | some t, some t' => !((base ++ t).isPrefixOf (base ++ t'))
  | _, _ => true

theorem pairTargetsDistinctB_spec {base : FPath} {e e' : FileEntry} {t t' : FPath}
    (h : pairTargetsDistinctB base e e' = true)
    (ht : e.target_subpath = some t) (ht' : e'.target_subpath = some t') :
    (base ++ t) ≠ (base ++ t') ∧ strictPrefixB (base ++ t) (base ++ t') = false := by
  unfold pairTargetsDistinctB at h
  rw [ht, ht'] at h
  dsimp only at h
  rw [Bool.not_eq_true'] at h
  constructor
  · intro heq
    rw [heq] at h
    have hrefl : (base ++ t').isPrefixOf (base ++ t') = true :=
      List.isPrefixOf_iff_prefix.mpr (List.prefix_refl _)
    rw [h] at hrefl
    exact Bool.noConfusion hrefl
  · by_contra hcon
    rw [Bool.not_eq_false] at hcon
    have := (strictPrefixB_iff.mp hcon).1
    rw [List.isPrefixOf_iff_prefix.mpr this] at h
    exact Bool.noConfusion h

/-- No backup filename in the store glob-matches the entry's target
basename. -/
def bksClearB (bks : BStore) (base : FPath) (e : FileEntry) : Bool :=
  match e.target_subpath with
  | some t => bks.all (fun b => !(strIsPrefix (lastName (base ++ t)) b.1))
  | none => true

theorem bksClearB_spec {bks : BStore} {base : FPath} {e : FileEntry} {t : FPath}
    (h : bksClearB bks base e = true) (ht : e.target_subpath = some t) :
    bks.all (fun b => !(strIsPrefix (lastName (base ++ t)) b.1)) = true := by
  unfold bksClearB at h
  rw [ht] at h
  exact h

theorem bksClearB_mk {bks : BStore} {base : FPath} {e : FileEntry}
    (h : ∀ t, e.target_subpath = some t →
      bks.all (fun b => !(strIsPrefix (lastName (base ++ t)) b.1)) = true) :
    bksClearB bks base e = true := by
  unfold bksClearB
  rcases ht : e.target_subpath with _ | t
  · rfl
  · exact h t ht

/-- The basename of one entry's target is not a glob-prefix of the backup
filename of the other entry's target. -/
def bnSepB (base : FPath) (e e' : FileEntry) : Bool :=
  match e.target_subpath, e'.target_subpath with
  | some t, some t' => !(strIsPrefix (lastName (base ++ t)) (backupBaseName (base ++ t')))
  | _, _ => true

theorem bnSepB_spec {base : FPath} {e e' : FileEntry} {t t' : FPath}
    (h : bnSepB base e e' = true)
    (ht : e.target_subpath = some t) (ht' : e'.target_subpath = some t') :
    strIsPrefix (lastName (base ++ t)) (backupBaseName (base ++ t')) = false := by
  unfold bnSepB at h
  rw [ht, ht'] at h
  dsimp only at h
  rw [Bool.not_eq_true'] at h
  exact h

/-- The backups the enable loop creates, in order: one per entry whose
resolved target already holds a file, carrying the original's data. -/
def enableBackups (fs0 : FS) (base : FPath) (entries : List FileEntry) : BStore :=
  entries.filterMap (fun e =>
    match e.target_subpath with
    | some t => (fs0.lookup (base ++ t)).map (fun c => (backupBaseName (base ++ t), c))
    | none => none)

theorem enableBackups_congr {fs fs' : FS} {base : FPath} :
    ∀ {entries : List FileEntry},
      (∀ e ∈ entries, ∀ t, e.target_subpath = some t →
        fs'.lookup (base ++ t) = fs.lookup (base ++ t)) →
      enableBackups fs' base entries = enableBackups fs base entries := by
  intro entries
  induction entries with
  | nil => intro _; rfl
  | cons e rest ih =>
      intro h
      unfold enableBackups
      rw [List.filterMap_cons, List.filterMap_cons]
      have htail : rest.filterMap _ = rest.filterMap _ :=
        ih (fun e' he' => h e' (List.mem_cons_of_mem e he'))
      rcases ht : e.target_subpath with _ | t
      · exact htail
      · dsimp only
        rw [h e (List.mem_cons_self e rest) t ht]
        rcases fs.lookup (base ++ t) with _ | c0
        · exact htail
        · show _ :: _ = _ :: _
          rw [htail]

theorem mem_enableBackups {fs0 : FS} {base : FPath} :
    ∀ {entries : List FileEntry} {b : String × FSFile},
      b ∈ enableBackups fs0 base entries →
      ∃ e ∈ entries, ∃ t, e.target_subpath = some t ∧
        b.1 = backupBaseName (base ++ t) ∧ fs0.lookup (base ++ t) = some b.2 := by
  intro entries
  induction entries with
  | nil => intro b hb; cases hb
  | cons e rest ih =>
      intro b hb
      unfold enableBackups at hb
      rw [List.filterMap_cons] at hb
      rcases ht : e.target_subpath with _ | t
      · rw [ht] at hb
        dsimp only at hb
        obtain ⟨e', he', hrest⟩ := ih hb
        exact ⟨e', List.mem_cons_of_mem e he', hrest⟩
      · rw [ht] at hb
        dsimp only at hb
        rcases hl : fs0.lookup (base ++ t) with _ | c0
        · rw [hl] at hb
          obtain ⟨e', he', hrest⟩ := ih hb
          exact ⟨e', List.mem_cons_of_mem e he', hrest⟩
        · rw [hl] at hb
          rcases List.mem_cons.mp hb with rfl | hb'
          · exact ⟨e, List.mem_cons_self e rest, t, ht, rfl, hl⟩
          · obtain ⟨e', he', hrest⟩ := ih hb'
            exact ⟨e', List.mem_cons_of_mem e he', hrest⟩

/-- Full characterisation of the enable loop under round-trip hypotheses:
the exact backup store produced, the written content at each target,
untouched paths elsewhere, and a bound on newly reachable directories. -/
theorem enable_chain (modFS : FS) (plat : String) (base : FPath) :
    ∀ (entries : List FileEntry) (st : EnResult),
      (∀ e ∈ entries, entryValidB modFS plat e = true) →
      (∀ e ∈ entries, targetFreeB st.fs base e = true) →
      entries.Nodup →
      (∀ e ∈ entries, ∀ e' ∈ entries, e ≠ e' → pairTargetsDistinctB base e e' = true) →
      (∀ e ∈ entries, ∀ e' ∈ entries, e ≠ e' → bnSepB base e e' = true) →
      (∀ e ∈ entries, bksClearB st.bks base e = true) →
      ((entries.foldl (enableStep modFS plat base) st).bks
          = st.bks ++ enableBackups st.fs base entries) ∧
      (∀ e ∈ entries, ∀ s t, e.source = some s → e.target_subpath = some t →
        (entries.foldl (enableStep modFS plat base) st).fs.lookup (base ++ t)
          = modFS.lookup s) ∧
      (∀ q, (∀ e ∈ entries, ∀ t, e.target_subpath = some t → base ++ t ≠ q) →
        (entries.foldl (enableStep modFS plat base) st).fs.lookup q = st.fs.lookup q) ∧
      (∀ x, (entries.foldl (enableStep modFS plat base) st).fs.isDir x = true →
        st.fs.isDir x = true ∨ ∃ e ∈ entries, ∃ t, e.target_subpath = some t ∧
          strictPrefixB x (base ++ t) = true) := by
  intro entries
  induction entries with
  | nil =>
      intro st _ _ _ _ _ _
      refine ⟨by simp [enableBackups], ?_, ?_, ?_⟩
      · intro e he; cases he
      · intro q _; rfl
      · intro x hx; exact Or.inl hx
  | cons e rest ih =>
      intro st hval htgt hnd hpair hbn hbks
      obtain ⟨hplat, s, t, hsrc, htsp, hsf, hsd, hte⟩ :=
        entryValidB_spec (hval e (List.mem_cons_self e rest))
      obtain ⟨c, hlook⟩ := lookup_isFile_some hsf
      obtain ⟨hdir, hanc⟩ := targetFreeB_spec (htgt e (List.mem_cons_self e rest)) htsp
      have hstep := enableStep_ok modFS plat base st e s t c hplat hsrc htsp hlook hsd hdir hanc
      have hteb : (base ++ t) ≠ ([] : FPath) := fun hh => hte (List.append_eq_nil.mp hh).2
      have hdl := dropLast_strictPrefixB (base ++ t) hteb
      have henotin : e ∉ rest := (List.nodup_cons.mp hnd).1
      have hndrest : rest.Nodup := (List.nodup_cons.mp hnd).2
      have hne : ∀ e' ∈ rest, e ≠ e' := fun e' he' heq => henotin (heq ▸ he')
      have hdist : ∀ e' ∈ rest, ∀ t', e'.target_subpath = some t' →
          (base ++ t') ≠ (base ++ t) ∧ strictPrefixB (base ++ t') (base ++ t) = false ∧
          strictPrefixB (base ++ t) (base ++ t') = false := by
        intro e' he' t' htsp'
        have h1 := pairTargetsDistinctB_spec
          (hpair e' (List.mem_cons_of_mem e he') e (List.mem_cons_self e rest)
            (fun heq => hne e' he' heq.symm)) htsp' htsp
        have h2 := pairTargetsDistinctB_spec
          (hpair e (List.mem_cons_self e rest) e' (List.mem_cons_of_mem e he')
            (hne e' he')) htsp htsp'
        exact ⟨h1.1, h1.2, h2.2⟩
      have hlstable : ∀ e' ∈ rest, ∀ t', e'.target_subpath = some t' →
          ((st.fs.mkdirP (base ++ t).dropLast).insertFile (base ++ t) c).lookup (base ++ t')
            = st.fs.lookup (base ++ t') := by
        intro e' he' t' htsp'
        rw [lookup_insertFile, if_neg (hdist e' he' t' htsp').1, lookup_mkdirP]
      have hbklean : (if st.fs.isFile (base ++ t) then
            backup_original st.fs st.bks (base ++ t) else st.bks)
          = st.bks ++ (((st.fs.lookup (base ++ t)).map
              (fun c0 => (backupBaseName (base ++ t), c0))).toList) := by
        rcases hl : st.fs.lookup (base ++ t) with _ | c0
        · have hf : st.fs.isFile (base ++ t) = false := by unfold FS.isFile; rw [hl]; rfl
          simp [hf]
        · have hf : st.fs.isFile (base ++ t) = true := by unfold FS.isFile; rw [hl]; rfl
          simp only [hf, eq_self_iff_true, if_true]
          rw [backup_original_of_lookup hl (bHas_false_of_clear
            (bksClearB_spec (hbks e (List.mem_cons_self e rest)) htsp))]
          rfl
      have hcons : enableBackups st.fs base (e :: rest)
          = (((st.fs.lookup (base ++ t)).map
              (fun c0 => (backupBaseName (base ++ t), c0))).toList)
            ++ enableBackups st.fs base rest := by
        unfold enableBackups
        rw [List.filterMap_cons, htsp]
        dsimp only
        rcases st.fs.lookup (base ++ t) with _ | c0
        · rfl
        · rfl
      -- hypotheses for the tail from the new state
      have htgt' : ∀ e' ∈ rest,
          targetFreeB ((st.fs.mkdirP (base ++ t).dropLast).insertFile (base ++ t) c)
            base e' = true := by
        intro e' he'
        obtain ⟨_, s', t', _, htsp', _, _, _⟩ :=
          entryValidB_spec (hval e' (List.mem_cons_of_mem e he'))
        obtain ⟨hfree', hanc'⟩ :=
          targetFreeB_spec (htgt e' (List.mem_cons_of_mem e he')) htsp'
        obtain ⟨_, hp1, hp2⟩ := hdist e' he' t' htsp'
        obtain ⟨hh1, hh2⟩ := targetFree_preserved st.fs base t t' c hte hfree' hanc' hp1 hp2
        exact targetFreeB_mk htsp' hh1 hh2
      have hbks' : ∀ e' ∈ rest,
          bksClearB (if st.fs.isFile (base ++ t) then
            backup_original st.fs st.bks (base ++ t) else st.bks) base e' = true := by
        intro e' he'
        obtain ⟨_, s', t', _, htsp', _, _, _⟩ :=
          entryValidB_spec (hval e' (List.mem_cons_of_mem e he'))
        rw [hbklean]
        refine bksClearB_mk (fun t'' htsp'' => ?_)
        have ht'' : t'' = t' := by rw [htsp'] at htsp''; exact (Option.some_inj.mp htsp'').symm
        subst ht''
        rw [List.all_append, Bool.and_eq_true]
        constructor
        · exact bksClearB_spec (hbks e' (List.mem_cons_of_mem e he')) htsp'
        · rcases st.fs.lookup (base ++ t) with _ | c0
          · rfl
          · show ((backupBaseName (base ++ t), c0) :: []).all _ = true
            rw [List.all_cons]
            have hsep := bnSepB_spec
              (hbn e' (List.mem_cons_of_mem e he') e (List.mem_cons_self e rest)
                (fun heq => hne e' he' heq.symm)) htsp' htsp
            simp [hsep]
      obtain ⟨ihA, ihB, ihC, ihD⟩ := ih
        { st with
          fs := (st.fs.mkdirP (base ++ t).dropLast).insertFile (base ++ t) c,
          bks := if st.fs.isFile (base ++ t) then
                   backup_original st.fs st.bks (base ++ t) else st.bks,
          wrote := st.wrote + 1,
          backedUp := st.backedUp + (if st.fs.isFile (base ++ t) then 1 else 0) }
        (fun e' he' => hval e' (List.mem_cons_of_mem e he'))
        htgt' hndrest
        (fun e1 h1 e2 h2 => hpair e1 (List.mem_cons_of_mem e h1) e2 (List.mem_cons_of_mem e h2))
        (fun e1 h1 e2 h2 => hbn e1 (List.mem_cons_of_mem e h1) e2 (List.mem_cons_of_mem e h2))
        hbks'
      rw [List.foldl_cons, hstep]
      refine ⟨?_, ?_, ?_, ?_⟩
      · rw [ihA]
        dsimp only
        rw [enableBackups_congr hlstable, hbklean, hcons, List.append_assoc]
      · intro e0 he0 s0 t0 hs0 ht0
        rcases List.mem_cons.mp he0 with rfl | he0'
        · have hs : s0 = s := by
            rw [hsrc] at hs0; exact (Option.some_inj.mp hs0).symm
          have ht : t0 = t := by
            rw [htsp] at ht0; exact (Option.some_inj.mp ht0).symm
          rw [hs, ht]
          rw [ihC (base ++ t) (fun e' he' t' htsp' => (hdist e' he' t' htsp').1)]
          dsimp only
          rw [lookup_insertFile, if_pos rfl, hlook]
        · exact ihB e0 he0' s0 t0 hs0 ht0
      · intro q hq
        rw [ihC q (fun e' he' t' ht' => hq e' (List.mem_cons_of_mem e he') t' ht')]
        dsimp only
        rw [lookup_insertFile,
          if_neg (fun hqe => (hq e (List.mem_cons_self e rest) t htsp) hqe.symm),
          lookup_mkdirP]
      · intro x hx
        rcases ihD x hx with hR | ⟨e', he', t', htsp', hsp⟩
        · dsimp only at hR
          rcases isDir_insertFile_true hR with hmk | hsp
          · rcases isDir_mkdirP_true hmk with hst | heq | hsp2
            · exact Or.inl hst
            · refine Or.inr ⟨e, List.mem_cons_self e rest, t, htsp, ?_⟩
              rw [heq]; exact hdl
            · exact Or.inr ⟨e, List.mem_cons_self e rest, t, htsp,
                strictPrefixB_trans_prefix (strictPrefixB_iff.mp hsp2).1 hdl⟩
          · exact Or.inr ⟨e, List.mem_cons_self e rest, t, htsp, hsp⟩
        · exact Or.inr ⟨e', List.mem_cons_of_mem e he', t', htsp', hsp⟩

/-! ### Disable-loop characterisation -/

theorem disableStep_none (bks : BStore) (base : FPath) (st : DisResult) (e : FileEntry)
    (htsp : e.target_subpath = none) :
    disableStep bks base st e = { st with errors := st.errors + 1 } := by
  unfold disableStep
  rw [htsp]

/-- A disable-loop iteration on an entry whose target is currently a file:
unlink, then restore the most recent glob-matching backup if any. -/
theorem disableStep_file (bks : BStore) (base : FPath) (st : DisResult) (e : FileEntry)
    (t : FPath) (htsp : e.target_subpath = some t)
    (hisf : st.fs.isFile (base ++ t) = true) :
    disableStep bks base st e =
      match find_latest_backup_for_filename bks (lastName (base ++ t)) with
      | some b =>
          { st with fs := (st.fs.removeFile (base ++ t)).insertFile (base ++ t) b.2,
                    removed := st.removed + 1, restored := st.restored + 1 }
      | none =>
          { st with fs := st.fs.removeFile (base ++ t),
                    removed := st.removed + 1, noBackup := st.noBackup + 1 } := by
  have hpe : st.fs.pathExists (base ++ t) = true := by
    unfold FS.pathExists; rw [hisf]; rfl
  unfold disableStep
  rw [htsp]
  dsimp only
  simp only [hpe, hisf, eq_self_iff_true, if_true]

/-- Characterisation of the disable loop: each entry's target ends with
exactly the content the backup store attributes to it (the `fs0` view),
other paths are untouched, and no new directories appear beyond the
targets. -/
theorem disable_chain (bksF : BStore) (base : FPath) (fs0 : FS) :
    ∀ (entries : List FileEntry) (st : DisResult),
      (∀ e ∈ entries, ∀ t, e.target_subpath = some t →
        st.fs.isFile (base ++ t) = true) →
      entries.Nodup →
      (∀ e ∈ entries, ∀ e' ∈ entries, e ≠ e' → pairTargetsDistinctB base e e' = true) →
      (∀ e ∈ entries, ∀ t, e.target_subpath = some t →
        bksF.filter (fun b => strIsPrefix (lastName (base ++ t)) b.1)
          = ((fs0.lookup (base ++ t)).map
              (fun c => (backupBaseName (base ++ t), c))).toList) →
      (∀ e ∈ entries, ∀ t, e.target_subpath = some t →
        (entries.foldl (disableStep bksF base) st).fs.lookup (base ++ t)
          = fs0.lookup (base ++ t)) ∧
      (∀ q, (∀ e ∈ entries, ∀ t, e.target_subpath = some t → base ++ t ≠ q) →
        (entries.foldl (disableStep bksF base) st).fs.lookup q = st.fs.lookup q) ∧
      (∀ x, (entries.foldl (disableStep bksF base) st).fs.isDir x = true →
        st.fs.isDir x = true ∨ ∃ e ∈ entries, ∃ t, e.target_subpath = some t ∧
          strictPrefixB x (base ++ t) = true) := by
  intro entries
  induction entries with
  | nil =>
      intro st _ _ _ _
      refine ⟨?_, ?_, ?_⟩
      · intro e he; cases he
      · intro q _; rfl
      · intro x hx; exact Or.inl hx
  | cons e rest ih =>
      intro st hisf hnd hpair hcand
      have henotin : e ∉ rest := (List.nodup_cons.mp hnd).1
      have hndrest : rest.Nodup := (List.nodup_cons.mp hnd).2
      have hne : ∀ e' ∈ rest, e ≠ e' := fun e' he' heq => henotin (heq ▸ he')
      rcases htsp : e.target_subpath with _ | t
      · -- entry without a target: state unchanged apart from the error count
        rw [List.foldl_cons, disableStep_none bksF base st e htsp]
        obtain ⟨ihA, ihB, ihC⟩ := ih { st with errors := st.errors + 1 }
          (fun e' he' t' ht' => hisf e' (List.mem_cons_of_mem e he') t' ht')
          hndrest
          (fun e1 h1 e2 h2 => hpair e1 (List.mem_cons_of_mem e h1) e2 (List.mem_cons_of_mem e h2))
          (fun e' he' t' ht' => hcand e' (List.mem_cons_of_mem e he') t' ht')
        refine ⟨?_, ?_, ?_⟩
        · intro e0 he0 t0 ht0
          rcases List.mem_cons.mp he0 with rfl | he0'
          · rw [htsp] at ht0; cases ht0
          · exact ihA e0 he0' t0 ht0
        · intro q hq
          exact ihB q (fun e' he' t' ht' => hq e' (List.mem_cons_of_mem e he') t' ht')
        · intro x hx
          rcases ihC x hx with h | ⟨e', he', t', ht', hsp⟩
          · exact Or.inl h
          · exact Or.inr ⟨e', List.mem_cons_of_mem e he', t', ht', hsp⟩
      · -- entry with a file target
        have hisfe := hisf e (List.mem_cons_self e rest) t htsp
        rw [List.foldl_cons, disableStep_file bksF base st e t htsp hisfe]
        have hdist : ∀ e' ∈ rest, ∀ t', e'.target_subpath = some t' →
            (base ++ t') ≠ (base ++ t) ∧ strictPrefixB (base ++ t) (base ++ t') = false := by
          intro e' he' t' htsp'
          have h1 := pairTargetsDistinctB_spec
            (hpair e' (List.mem_cons_of_mem e he') e (List.mem_cons_self e rest)
              (fun heq => hne e' he' heq.symm)) htsp' htsp
          have h2 := pairTargetsDistinctB_spec
            (hpair e (List.mem_cons_self e rest) e' (List.mem_cons_of_mem e he')
              (hne e' he')) htsp htsp'
          exact ⟨h1.1, h2.2⟩
        rcases hl : fs0.lookup (base ++ t) with _ | c0
        · -- no backup for this target
          have hfind : find_latest_backup_for_filename bksF (lastName (base ++ t)) = none := by
            apply find_latest_of_filter_nil
            rw [hcand e (List.mem_cons_self e rest) t htsp, hl]
            rfl
          rw [hfind]
          dsimp only
          have hisf' : ∀ e' ∈ rest, ∀ t', e'.target_subpath = some t' →
              (st.fs.removeFile (base ++ t)).isFile (base ++ t') = true := by
            intro e' he' t' ht'
            rw [isFile_removeFile, if_neg (hdist e' he' t' ht').1]
            exact hisf e' (List.mem_cons_of_mem e he') t' ht'
          obtain ⟨ihA, ihB, ihC⟩ := ih
            { st with fs := st.fs.removeFile (base ++ t),
                      removed := st.removed + 1, noBackup := st.noBackup + 1 }
            hisf' hndrest
            (fun e1 h1 e2 h2 => hpair e1 (List.mem_cons_of_mem e h1) e2 (List.mem_cons_of_mem e h2))
            (fun e' he' t' ht' => hcand e' (List.mem_cons_of_mem e he') t' ht')
          refine ⟨?_, ?_, ?_⟩
          · intro e0 he0 t0 ht0
            rcases List.mem_cons.mp he0 with rfl | he0'
            · have ht : t0 = t := by
                rw [htsp] at ht0; exact (Option.some_inj.mp ht0).symm
              subst ht
              rw [ihB (base ++ t0) (fun e' he' t' ht' => (hdist e' he' t' ht').1)]
              dsimp only
              rw [lookup_removeFile, if_pos rfl, hl]
            · exact ihA e0 he0' t0 ht0
          · intro q hq
            rw [ihB q (fun e' he' t' ht' => hq e' (List.mem_cons_of_mem e he') t' ht')]
            dsimp only
            rw [lookup_removeFile,
              if_neg (fun hqe => (hq e (List.mem_cons_self e rest) t htsp) hqe.symm)]
          · intro x hx
            rcases ihC x hx with h | ⟨e', he', t', ht', hsp⟩
            · exact Or.inl (isDir_removeFile_true h)
            · exact Or.inr ⟨e', List.mem_cons_of_mem e he', t', ht', hsp⟩
        · -- a single backup carrying the original content
          have hfind : find_latest_backup_for_filename bksF (lastName (base ++ t))
              = some (backupBaseName (base ++ t), c0) := by
            apply find_latest_of_filter_single
            rw [hcand e (List.mem_cons_self e rest) t htsp, hl]
            rfl
          rw [hfind]
          dsimp only
          have hisf' : ∀ e' ∈ rest, ∀ t', e'.target_subpath = some t' →
              ((st.fs.removeFile (base ++ t)).insertFile (base ++ t) c0).isFile
                (base ++ t') = true := by
            intro e' he' t' ht'
            rw [isFile_insertFile, if_neg (hdist e' he' t' ht').1,
              isFile_removeFile, if_neg (hdist e' he' t' ht').1]
            exact hisf e' (List.mem_cons_of_mem e he') t' ht'
          obtain ⟨ihA, ihB, ihC⟩ := ih
            { st with fs := (st.fs.removeFile (base ++ t)).insertFile (base ++ t) c0,
                      removed := st.removed + 1, restored := st.restored + 1 }
            hisf' hndrest
            (fun e1 h1 e2 h2 => hpair e1 (List.mem_cons_of_mem e h1) e2 (List.mem_cons_of_mem e h2))
            (fun e' he' t' ht' => hcand e' (List.mem_cons_of_mem e he') t' ht')
          refine ⟨?_, ?_, ?_⟩
          · intro e0 he0 t0 ht0
            rcases List.mem_cons.mp he0 with rfl | he0'
            · have ht : t0 = t := by
                rw [htsp] at ht0; exact (Option.some_inj.mp ht0).symm
              subst ht
              rw [ihB (base ++ t0) (fun e' he' t' ht' => (hdist e' he' t' ht').1)]
              dsimp only
              rw [lookup_insertFile, if_pos rfl, hl]
            · exact ihA e0 he0' t0 ht0
          · intro q hq
            rw [ihB q (fun e' he' t' ht' => hq e' (List.mem_cons_of_mem e he') t' ht')]
            dsimp only
            rw [lookup_insertFile,
              if_neg (fun hqe => (hq e (List.mem_cons_self e rest) t htsp) hqe.symm),
              lookup_removeFile,
              if_neg (fun hqe => (hq e (List.mem_cons_self e rest) t htsp) hqe.symm)]
          · intro x hx
            rcases ihC x hx with h | ⟨e', he', t', ht', hsp⟩
            · rcases isDir_insertFile_true h with h2 | h2
              · exact Or.inl (isDir_removeFile_true h2)
              · exact Or.inr ⟨e, List.mem_cons_self e rest, t, htsp, h2⟩
            · exact Or.inr ⟨e', List.mem_cons_of_mem e he', t', ht', hsp⟩

/-! ### The backup store after an enable, viewed through one target's glob -/

theorem enableBackups_cons_noTsp {fs0 : FS} {base : FPath} {e : FileEntry}
    {rest : List FileEntry} (htsp : e.target_subpath = none) :
    enableBackups fs0 base (e :: rest) = enableBackups fs0 base rest := by
  unfold enableBackups
  rw [List.filterMap_cons, htsp]

theorem enableBackups_cons_none {fs0 : FS} {base : FPath} {e : FileEntry}
    {rest : List FileEntry} {t : FPath} (htsp : e.target_subpath = some t)
    (hl : fs0.lookup (base ++ t) = none) :
    enableBackups fs0 base (e :: rest) = enableBackups fs0 base rest := by
  unfold enableBackups
  rw [List.filterMap_cons, htsp]
  dsimp only
  rw [hl]
  rfl

theorem enableBackups_cons_some {fs0 : FS} {base : FPath} {e : FileEntry}
    {rest : List FileEntry} {t : FPath} {c0 : FSFile} (htsp : e.target_subpath = some t)
    (hl : fs0.lookup (base ++ t) = some c0) :
    enableBackups fs0 base (e :: rest)
      = (backupBaseName (base ++ t), c0) :: enableBackups fs0 base rest := by
  unfold enableBackups
  rw [List.filterMap_cons, htsp]
  dsimp only
  rw [hl]
  rfl

theorem enableBackups_filter_nil (fs0 : FS) (base : FPath) (t : FPath)
    (entries : List FileEntry)
    (h : ∀ e' ∈ entries, ∀ t', e'.target_subpath = some t' →
      strIsPrefix (lastName (base ++ t)) (backupBaseName (base ++ t')) = false) :
    (enableBackups fs0 base entries).filter
      (fun b => strIsPrefix (lastName (base ++ t)) b.1) = [] := by
  rw [List.filter_eq_nil_iff]
  intro b hb
  obtain ⟨e', he', t', ht', hname, _⟩ := mem_enableBackups hb
  rw [hname, h e' he' t' ht']
  exact Bool.noConfusion

/-- Restricted to one entry's target basename, the whole post-enable backup
store contains exactly that entry's own backup (one entry when the target
existed, none otherwise), provided basenames are glob-separated. -/
theorem enableBackups_filter (fs0 : FS) (base : FPath) :
    ∀ (entries : List FileEntry) (e : FileEntry) (t : FPath),
      e ∈ entries → e.target_subpath = some t → entries.Nodup →
      (∀ e1 ∈ entries, ∀ e2 ∈ entries, e1 ≠ e2 → bnSepB base e1 e2 = true) →
      (enableBackups fs0 base entries).filter
          (fun b => strIsPrefix (lastName (base ++ t)) b.1)
        = ((fs0.lookup (base ++ t)).map
            (fun c => (backupBaseName (base ++ t), c))).toList := by
  intro entries
  induction entries with
  | nil => intro e t he; cases he
  | cons e0 rest ih =>
      intro e t he htsp hnd hbn
      have hndrest := (List.nodup_cons.mp hnd).2
      rcases List.mem_cons.mp he with rfl | herest
      · have hnil : (enableBackups fs0 base rest).filter
            (fun b => strIsPrefix (lastName (base ++ t)) b.1) = [] := by
          apply enableBackups_filter_nil
          intro e' he' t' ht'
          exact bnSepB_spec (hbn e (List.mem_cons_self e rest) e'
            (List.mem_cons_of_mem e he')
            (fun heq => (List.nodup_cons.mp hnd).1 (heq ▸ he'))) htsp ht'
        rcases hl : fs0.lookup (base ++ t) with _ | c0
        · rw [enableBackups_cons_none htsp hl, hnil]
          rfl
        · rw [enableBackups_cons_some htsp hl, List.filter_cons]
          simp only [strIsPrefix_backupBaseName, if_true]
          rw [hnil]
          rfl
      · have hne0 : e ≠ e0 := fun heq => (List.nodup_cons.mp hnd).1 (heq ▸ herest)
        have hrec := ih e t herest htsp hndrest
          (fun e1 h1 e2 h2 => hbn e1 (List.mem_cons_of_mem e0 h1) e2 (List.mem_cons_of_mem e0 h2))
        rcases htsp0 : e0.target_subpath with _ | t0
        · rw [enableBackups_cons_noTsp htsp0]
          exact hrec
        · rcases hl0 : fs0.lookup (base ++ t0) with _ | c00
          · rw [enableBackups_cons_none htsp0 hl0]
            exact hrec
          · rw [enableBackups_cons_some htsp0 hl0, List.filter_cons]
            have hsep := bnSepB_spec
              (hbn e (List.mem_cons_of_mem e0 herest) e0 (List.mem_cons_self e0 rest)
                hne0) htsp htsp0
            simp only [hsep, Bool.false_eq_true, if_false]
            exact hrec

/-! ### C1: the enable/disable round trip -/

/-- C1 counterexample.  First scenario: a single well-formed entry tagged
for the other platform (`windows`, running on `mac`) targeting the
pre-existing file `f`: enable skips it, but disable — which applies no
platform filter — deletes `f` and has no backup to restore, so a target
file that existed before the enable is absent after the disable.  Second
scenario: two entries with distinct targets `d1/f`, `d2/f` sharing the
basename `f`, both pre-existing; backup lookup is by basename glob and
mtime, so disable restores `d2/f`'s bytes into `d1/f`. -/
theorem enable_disable_counterexample :
    ((⟨[(["f"], ⟨[7], 5⟩)], []⟩ : FS).lookup ["f"] = some ⟨[7], 5⟩ ∧
     (disableEntries
        (enableEntries ⟨[(["s"], ⟨[1], 0⟩)], []⟩ "mac" [] [⟨"windows", some ["s"], some ["f"]⟩]
          ⟨[(["f"], ⟨[7], 5⟩)], []⟩ []).bks
        [] [⟨"windows", some ["s"], some ["f"]⟩]
        (enableEntries ⟨[(["s"], ⟨[1], 0⟩)], []⟩ "mac" [] [⟨"windows", some ["s"], some ["f"]⟩]
          ⟨[(["f"], ⟨[7], 5⟩)], []⟩ []).fs).fs.pathExists ["f"] = false) ∧
    ((⟨[(["d1", "f"], ⟨[10], 5⟩), (["d2", "f"], ⟨[20], 9⟩)], []⟩ : FS).lookup ["d1", "f"]
        = some ⟨[10], 5⟩ ∧
     (disableEntries
        (enableEntries ⟨[(["s1"], ⟨[1], 0⟩), (["s2"], ⟨[2], 0⟩)], []⟩ "mac" []
          [⟨"", some ["s1"], some ["d1", "f"]⟩, ⟨"", some ["s2"], some ["d2", "f"]⟩]
          ⟨[(["d1", "f"], ⟨[10], 5⟩), (["d2", "f"], ⟨[20], 9⟩)], []⟩ []).bks
        [] [⟨"", some ["s1"], some ["d1", "f"]⟩, ⟨"", some ["s2"], some ["d2", "f"]⟩]
        (enableEntries ⟨[(["s1"], ⟨[1], 0⟩), (["s2"], ⟨[2], 0⟩)], []⟩ "mac" []
          [⟨"", some ["s1"], some ["d1", "f"]⟩, ⟨"", some ["s2"], some ["d2", "f"]⟩]
          ⟨[(["d1", "f"], ⟨[10], 5⟩), (["d2", "f"], ⟨[20], 9⟩)], []⟩ []).fs).fs.lookup
        ["d1", "f"] = some ⟨[20], 9⟩) := by decide

/-- C1 (amended): provided every entry survives the platform filter with a
single-file source and a non-empty target, resolved targets are pairwise
distinct and prefix-free, currently writable, and no target's basename
glob-matches another target's backup filename, then — starting from an empty
backup store — enabling and then disabling the mod leaves every target path
holding exactly its pre-enable file data, and every target path that did not
exist before the enable absent afterwards. -/
theorem enable_disable_round_trip (modFS : FS) (plat : String) (base : FPath)
    (entries : List FileEntry) (fs0 : FS)
    (hval : ∀ e ∈ entries, entryValidB modFS plat e = true)
    (htgt : ∀ e ∈ entries, targetFreeB fs0 base e = true)
    (hnd : entries.Nodup)
    (hpair : ∀ e ∈ entries, ∀ e' ∈ entries, e ≠ e' → pairTargetsDistinctB base e e' = true)
    (hbn : ∀ e ∈ entries, ∀ e' ∈ entries, e ≠ e' → bnSepB base e e' = true) :
    ∀ e ∈ entries, ∀ t, e.target_subpath = some t →
      ((disableEntries (enableEntries modFS plat base entries fs0 []).bks base entries
          (enableEntries modFS plat base entries fs0 []).fs).fs.lookup (base ++ t)
        = fs0.lookup (base ++ t)) ∧
      (fs0.pathExists (base ++ t) = false →
        (disableEntries (enableEntries modFS plat base entries fs0 []).bks base entries
          (enableEntries modFS plat base entries fs0 []).fs).fs.pathExists (base ++ t)
          = false) := by
  obtain ⟨hA, hB, hC, hD⟩ := enable_chain modFS plat base entries ⟨fs0, [], 0, 0, 0, 0⟩
    hval htgt hnd hpair hbn (fun e _ => bksClearB_mk (fun t _ => rfl))
  have hbksEq : (enableEntries modFS plat base entries fs0 []).bks
      = enableBackups fs0 base entries := by
    show (entries.foldl (enableStep modFS plat base) ⟨fs0, [], 0, 0, 0, 0⟩).bks = _
    rw [hA]
    exact List.nil_append _
  have hisf : ∀ e ∈ entries, ∀ t, e.target_subpath = some t →
      (enableEntries modFS plat base entries fs0 []).fs.isFile (base ++ t) = true := by
    intro e he t ht
    obtain ⟨_, s, t', hs, ht', hsf, _, _⟩ := entryValidB_spec (hval e he)
    have htt : t' = t := by rw [ht] at ht'; exact (Option.some_inj.mp ht').symm
    subst htt
    obtain ⟨c, hlook⟩ := lookup_isFile_some hsf
    show ((entries.foldl (enableStep modFS plat base) ⟨fs0, [], 0, 0, 0, 0⟩).fs.lookup
      (base ++ t')).isSome = true
    rw [hB e he s t' hs ht, hlook]
    rfl
  have hcand : ∀ e ∈ entries, ∀ t, e.target_subpath = some t →
      (enableEntries modFS plat base entries fs0 []).bks.filter
          (fun b => strIsPrefix (lastName (base ++ t)) b.1)
        = ((fs0.lookup (base ++ t)).map
            (fun c => (backupBaseName (base ++ t), c))).toList := by
    intro e he t ht
    rw [hbksEq]
    exact enableBackups_filter fs0 base entries e t he ht hnd hbn
  obtain ⟨hda, hdb, hdc⟩ := disable_chain
    (enableEntries modFS plat base entries fs0 []).bks base fs0 entries
    ⟨(enableEntries modFS plat base entries fs0 []).fs, 0, 0, 0, 0, 0⟩
    hisf hnd hpair hcand
  have hnsp : ∀ e ∈ entries, ∀ t, e.target_subpath = some t →
      ∀ e' ∈ entries, ∀ t', e'.target_subpath = some t' →
      strictPrefixB (base ++ t) (base ++ t') = false := by
    intro e he t ht e' he' t' ht'
    by_cases hee : e = e'
    · subst hee
      have htt : t' = t := by rw [ht] at ht'; exact (Option.some_inj.mp ht').symm
      subst htt
      exact strictPrefixB_irrefl _
    · exact (pairTargetsDistinctB_spec (hpair e he e' he' hee) ht ht').2
  have hdeq : disableEntries (enableEntries modFS plat base entries fs0 []).bks base entries
      (enableEntries modFS plat base entries fs0 []).fs
    = entries.foldl (disableStep (enableEntries modFS plat base entries fs0 []).bks base)
        ⟨(enableEntries modFS plat base entries fs0 []).fs, 0, 0, 0, 0, 0⟩ := rfl
  intro e he t ht
  rw [hdeq]
  refine ⟨hda e he t ht, fun hnex => ?_⟩
  have hnf : fs0.isFile (base ++ t) = false ∧ fs0.isDir (base ++ t) = false := by
    unfold FS.pathExists at hnex
    constructor
    · rcases hb : fs0.isFile (base ++ t)
      · rfl
      · rw [hb] at hnex; exact Bool.noConfusion hnex
    · rcases hb : fs0.isDir (base ++ t)
      · rfl
      · rw [hb, Bool.or_true] at hnex; exact Bool.noConfusion hnex
  have h1 : (entries.foldl (disableStep (enableEntries modFS plat base entries fs0 []).bks base)
      ⟨(enableEntries modFS plat base entries fs0 []).fs, 0, 0, 0, 0, 0⟩).fs.isFile
        (base ++ t) = false := by
    unfold FS.isFile
    rw [hda e he t ht, lookup_none_of_not_isFile hnf.1]
    rfl
  have h2 : (entries.foldl (disableStep (enableEntries modFS plat base entries fs0 []).bks base)
      ⟨(enableEntries modFS plat base entries fs0 []).fs, 0, 0, 0, 0, 0⟩).fs.isDir
        (base ++ t) = false := by
    by_contra hcon
    rw [Bool.not_eq_false] at hcon
    rcases hdc (base ++ t) hcon with hen | ⟨e', he', t', ht', hsp⟩
    · rcases hD (base ++ t) hen with h0 | ⟨e', he', t', ht', hsp⟩
      · rw [hnf.2] at h0; exact Bool.noConfusion h0
      · rw [hnsp e he t ht e' he' t' ht'] at hsp; exact Bool.noConfusion hsp
    · rw [hnsp e he t ht e' he' t' ht'] at hsp; exact Bool.noConfusion hsp
  unfold FS.pathExists
  rw [h1, h2]
  rfl

/-- C1 witness: one entry overwriting a pre-existing `cfg` file and one
entry creating a fresh `new` file; after enable-then-disable, `cfg` holds
its original bytes again and `new` is gone. -/
theorem enable_disable_round_trip_witness :
    (((disableEntries (enableEntries ⟨[(["a"], ⟨[1], 3⟩), (["b"], ⟨[2], 4⟩)], []⟩ "mac" ["r"]
          [⟨"", some ["a"], some ["cfg"]⟩, ⟨"", some ["b"], some ["new"]⟩]
          ⟨[(["r", "cfg"], ⟨[9], 1⟩)], []⟩ []).bks ["r"]
          [⟨"", some ["a"], some ["cfg"]⟩, ⟨"", some ["b"], some ["new"]⟩]
          (enableEntries ⟨[(["a"], ⟨[1], 3⟩), (["b"], ⟨[2], 4⟩)], []⟩ "mac" ["r"]
            [⟨"", some ["a"], some ["cfg"]⟩, ⟨"", some ["b"], some ["new"]⟩]
            ⟨[(["r", "cfg"], ⟨[9], 1⟩)], []⟩ []).fs).fs.lookup (["r"] ++ ["cfg"])
        = (⟨[(["r", "cfg"], ⟨[9], 1⟩)], []⟩ : FS).lookup (["r"] ++ ["cfg"])) ∧
      ((⟨[(["r", "cfg"], ⟨[9], 1⟩)], []⟩ : FS).pathExists (["r"] ++ ["cfg"]) = false →
        (disableEntries (enableEntries ⟨[(["a"], ⟨[1], 3⟩), (["b"], ⟨[2], 4⟩)], []⟩ "mac" ["r"]
          [⟨"", some ["a"], some ["cfg"]⟩, ⟨"", some ["b"], some ["new"]⟩]
          ⟨[(["r", "cfg"], ⟨[9], 1⟩)], []⟩ []).bks ["r"]
          [⟨"", some ["a"], some ["cfg"]⟩, ⟨"", some ["b"], some ["new"]⟩]
          (enableEntries ⟨[(["a"], ⟨[1], 3⟩), (["b"], ⟨[2], 4⟩)], []⟩ "mac" ["r"]
            [⟨"", some ["a"], some ["cfg"]⟩, ⟨"", some ["b"], some ["new"]⟩]
            ⟨[(["r", "cfg"], ⟨[9], 1⟩)], []⟩ []).fs).fs.pathExists (["r"] ++ ["cfg"])
          = false)) ∧
    (((disableEntries (enableEntries ⟨[(["a"], ⟨[1], 3⟩), (["b"], ⟨[2], 4⟩)], []⟩ "mac" ["r"]
          [⟨"", some ["a"], some ["cfg"]⟩, ⟨"", some ["b"], some ["new"]⟩]
          ⟨[(["r", "cfg"], ⟨[9], 1⟩)], []⟩ []).bks ["r"]
          [⟨"", some ["a"], some ["cfg"]⟩, ⟨"", some ["b"], some ["new"]⟩]
          (enableEntries ⟨[(["a"], ⟨[1], 3⟩), (["b"], ⟨[2], 4⟩)], []⟩ "mac" ["r"]
            [⟨"", some ["a"], some ["cfg"]⟩, ⟨"", some ["b"], some ["new"]⟩]
            ⟨[(["r", "cfg"], ⟨[9], 1⟩)], []⟩ []).fs).fs.lookup (["r"] ++ ["new"])
        = (⟨[(["r", "cfg"], ⟨[9], 1⟩)], []⟩ : FS).lookup (["r"] ++ ["new"])) ∧
      ((⟨[(["r", "cfg"], ⟨[9], 1⟩)], []⟩ : FS).pathExists (["r"] ++ ["new"]) = false →
        (disableEntries (enableEntries ⟨[(["a"], ⟨[1], 3⟩), (["b"], ⟨[2], 4⟩)], []⟩ "mac" ["r"]
          [⟨"", some ["a"], some ["cfg"]⟩, ⟨"", some ["b"], some ["new"]⟩]
          ⟨[(["r", "cfg"], ⟨[9], 1⟩)], []⟩ []).bks ["r"]
          [⟨"", some ["a"], some ["cfg"]⟩, ⟨"", some ["b"], some ["new"]⟩]
          (enableEntries ⟨[(["a"], ⟨[1], 3⟩), (["b"], ⟨[2], 4⟩)], []⟩ "mac" ["r"]
            [⟨"", some ["a"], some ["cfg"]⟩, ⟨"", some ["b"], some ["new"]⟩]
            ⟨[(["r", "cfg"], ⟨[9], 1⟩)], []⟩ []).fs).fs.pathExists (["r"] ++ ["new"])
          = false)) :=
  ⟨enable_disable_round_trip ⟨[(["a"], ⟨[1], 3⟩), (["b"], ⟨[2], 4⟩)], []⟩ "mac" ["r"]
      [⟨"", some ["a"], some ["cfg"]⟩, ⟨"", some ["b"], some ["new"]⟩]
      ⟨[(["r", "cfg"], ⟨[9], 1⟩)], []⟩
      (by decide) (by decide) (by decide) (by decide) (by decide)
      ⟨"", some ["a"], some ["cfg"]⟩ (by decide) ["cfg"] rfl,
   enable_disable_round_trip ⟨[(["a"], ⟨[1], 3⟩), (["b"], ⟨[2], 4⟩)], []⟩ "mac" ["r"]
      [⟨"", some ["a"], some ["cfg"]⟩, ⟨"", some ["b"], some ["new"]⟩]
      ⟨[(["r", "cfg"], ⟨[9], 1⟩)], []⟩
      (by decide) (by decide) (by decide) (by decide) (by decide)
      ⟨"", some ["b"], some ["new"]⟩ (by decide) ["new"] rfl⟩

/-! ### Extension of a tree by enable activity -/

/-- `b` extends `a`: every file of `a` is (still) a file of `b` and every
directory of `a` is (still) a directory of `b`.  The enable loop only writes
files and creates directories, so the live tree only ever extends. -/
def Exts (a b : FS) : Prop :=
  (∀ p, a.isFile p = true → b.isFile p = true) ∧
  (∀ p, a.isDir p = true → b.isDir p = true)

theorem exts_refl (a : FS) : Exts a a := ⟨fun _ h => h, fun _ h => h⟩

theorem exts_trans {a b c : FS} (h1 : Exts a b) (h2 : Exts b c) : Exts a c :=
  ⟨fun p h => h2.1 p (h1.1 p h), fun p h => h2.2 p (h1.2 p h)⟩

theorem exts_insertFile (fs : FS) (p : FPath) (c : FSFile) :
    Exts fs (fs.insertFile p c) := by
  constructor
  · intro q h
    rw [isFile_insertFile]
    split
    · rfl
    · exact h
  · intro q h
    exact isDir_insertFile_of h

theorem exts_mkdirP (fs : FS) (d : FPath) : Exts fs (fs.mkdirP d) := by
  constructor
  · intro q h; rw [isFile_mkdirP]; exact h
  · intro q h; exact isDir_mkdirP_of h

theorem exts_runCopyItems (dst : FPath) :
    ∀ (items : List CopyItem) (fs : FS) (n : Nat),
      Exts fs (runCopyItems dst items fs n).1 := by
  intro items
  induction items with
  | nil => intro fs n; exact exts_refl fs
  | cons it rest ih =>
      intro fs n
      cases it with
      | dirItem rel =>
          simp only [runCopyItems]
          split
          · exact exts_refl fs
          · exact exts_trans (exts_mkdirP fs (dst ++ rel)) (ih _ _)
      | fileItem rel c =>
          simp only [runCopyItems]
          split
          · exact exts_refl fs
          · split
            · exact exts_refl fs
            · exact exts_trans
                (exts_trans (exts_mkdirP fs (dst ++ rel).dropLast)
                  (exts_insertFile _ (dst ++ rel) c)) (ih _ _)

theorem exts_copyAny (modFS : FS) (src : FPath) (fs : FS) (dst : FPath) :
    Exts fs (copyAny modFS src fs dst).1 := by
  unfold copyAny
  split
  · split
    · exact exts_refl fs
    · exact exts_trans (exts_mkdirP fs dst) (exts_runCopyItems dst _ _ _)
  · split
    · split
      · exact exts_refl fs
      · split
        · exact exts_refl fs
        · exact exts_trans (exts_mkdirP fs dst.dropLast) (exts_insertFile _ dst _)
    · exact exts_refl fs

theorem exts_enableStep (modFS : FS) (plat : String) (base : FPath)
    (st : EnResult) (e : FileEntry) :
    Exts st.fs (enableStep modFS plat base st e).fs := by
  unfold enableStep
  split
  · exact exts_refl st.fs
  · split
    · split
      · exact exts_refl st.fs
      · rename_i srel trel hs ht hcond
        have h := exts_copyAny modFS srel st.fs (base ++ trel)
        rcases hc : copyAny modFS srel st.fs (base ++ trel) with ⟨fs1, res⟩
        rw [hc] at h
        cases res <;> exact h
    · exact exts_refl st.fs

theorem exts_enableEntries_go (modFS : FS) (plat : String) (base : FPath) :
    ∀ (entries : List FileEntry) (st : EnResult),
      Exts st.fs (entries.foldl (enableStep modFS plat base) st).fs := by
  intro entries
  induction entries with
  | nil => intro st; exact exts_refl st.fs
  | cons e rest ih =>
      intro st
      exact exts_trans (exts_enableStep modFS plat base st e) (ih _)

theorem exts_applyCalls (plat : String) :
    ∀ (calls : List EnCall) (fs : FS) (bks : BStore),
      Exts fs (applyCalls plat calls fs bks).1 := by
  intro calls
  induction calls with
  | nil => intro fs bks; exact exts_refl fs
  | cons c rest ih =>
      intro fs bks
      exact exts_trans
        (exts_enableEntries_go c.modFS plat c.base c.entries ⟨fs, bks, 0, 0, 0, 0⟩)
        (ih _ _)

/-! ### Well-formedness: characterisation -/

theorem pairwiseNoPrefixB_iff : ∀ (l : List FPath),
    pairwiseNoPrefixB l = true ↔
      l.Pairwise (fun p q => ¬ p <+: q ∧ ¬ q <+: p) := by
  intro l
  induction l with
  | nil => simp [pairwiseNoPrefixB]
  | cons p rest ih =>
      rw [List.pairwise_cons, ← ih]
      simp only [pairwiseNoPrefixB, Bool.and_eq_true, List.all_eq_true]
      constructor
      · rintro ⟨h1, h2⟩
        refine ⟨fun q hq => ?_, h2⟩
        have h3 := h1 q hq
        rw [Bool.not_eq_true', Bool.not_eq_true'] at h3
        constructor
        · intro hc
          rw [List.isPrefixOf_iff_prefix.mpr hc] at h3
          exact Bool.noConfusion h3.1
        · intro hc
          rw [List.isPrefixOf_iff_prefix.mpr hc] at h3
          exact Bool.noConfusion h3.2
      · rintro ⟨h1, h2⟩
        refine ⟨fun q hq => ?_, h2⟩
        have h3 := h1 q hq
        rw [Bool.not_eq_true', Bool.not_eq_true']
        constructor
        · rcases hb : List.isPrefixOf p q with _ | _
          · rfl
          · exact absurd (List.isPrefixOf_iff_prefix.mp hb) h3.1
        · rcases hb : List.isPrefixOf q p with _ | _
          · rfl
          · exact absurd (List.isPrefixOf_iff_prefix.mp hb) h3.2

theorem wfB_parts {fs : FS} (hwf : fs.wfB = true) :
    pairwiseNoPrefixB (fs.files.map (·.1)) = true ∧
    (fs.dirs.all (fun d => !(fs.files.any (fun e => e.1.isPrefixOf d)))) = true := by
  unfold FS.wfB at hwf
  rw [Bool.and_eq_true] at hwf
  exact hwf

theorem wf_keys_no_prefix {fs : FS} (hwf : fs.wfB = true) :
    ∀ p ∈ fs.files.map (·.1), ∀ q ∈ fs.files.map (·.1), p ≠ q → ¬ p <+: q := by
  have hp := (wfB_parts hwf).1
  rw [pairwiseNoPrefixB_iff] at hp
  intro p hpm q hqm hne
  have hsymm : Symmetric (fun p q : FPath => ¬ p <+: q ∧ ¬ q <+: p) := by
    intro a b hab; exact ⟨hab.2, hab.1⟩
  exact (hp.forall hsymm hpm hqm hne).1

theorem wf_dirs {fs : FS} (hwf : fs.wfB = true) :
    ∀ d ∈ fs.dirs, ∀ e ∈ fs.files, ¬ e.1 <+: d := by
  have h2 := (wfB_parts hwf).2
  rw [List.all_eq_true] at h2
  intro d hd e he hpre
  have h3 := h2 d hd
  have hany : (fs.files.any (fun e => e.1.isPrefixOf d)) = true :=
    List.any_eq_true.mpr ⟨e, he, List.isPrefixOf_iff_prefix.mpr hpre⟩
  rw [hany] at h3
  exact Bool.noConfusion h3

theorem mem_of_lookup {fs : FS} {p : FPath} {c : FSFile}
    (h : fs.lookup p = some c) : (p, c) ∈ fs.files := by
  unfold FS.lookup at h
  rcases hf : fs.files.find? (fun e => e.1 == p) with _ | e
  · rw [hf] at h; cases h
  · rw [hf] at h
    have hm := List.mem_of_find?_eq_some hf
    have hp := List.find?_some hf
    rw [beq_iff_eq] at hp
    cases e with
    | mk a b =>
        simp only [Option.map_some'] at h
        have hb : b = c := Option.some_inj.mp h
        have ha : a = p := hp
        subst hb; subst ha
        exact hm

theorem isFile_of_mem {fs : FS} {e : FPath × FSFile} (h : e ∈ fs.files) :
    fs.isFile e.1 = true := by
  unfold FS.isFile FS.lookup
  rcases hf : fs.files.find? (fun x => x.1 == e.1) with _ | x
  · rw [List.find?_eq_none] at hf
    exact absurd (beq_iff_eq.mpr rfl) (hf e h)
  · rw [hf]; rfl

theorem wf_isFile_not_isDir {fs : FS} (hwf : fs.wfB = true) {p : FPath}
    (hf : fs.isFile p = true) : fs.isDir p = false := by
  by_contra hcon
  rw [Bool.not_eq_false] at hcon
  obtain ⟨c, hc⟩ := lookup_isFile_some hf
  have hmem : (p, c) ∈ fs.files := mem_of_lookup hc
  rcases isDir_iff.mp hcon with ⟨d, hd, hpd⟩ | ⟨e, he, hpe⟩
  · apply wf_dirs hwf d hd (p, c) hmem
    rcases hpd with rfl | hsp
    · exact List.prefix_refl _
    · exact (strictPrefixB_iff.mp hsp).1
  · obtain ⟨hpre, hne⟩ := strictPrefixB_iff.mp hpe
    exact wf_keys_no_prefix hwf p (List.mem_map.mpr ⟨(p, c), hmem, rfl⟩)
      e.1 (List.mem_map.mpr ⟨e, he, rfl⟩) hne hpre

theorem wf_isFile_not_hasFSA {fs : FS} (hwf : fs.wfB = true) {p : FPath}
    (hf : fs.isFile p = true) : fs.hasFileStrictAncestor p = false := by
  by_contra hcon
  rw [Bool.not_eq_false] at hcon
  obtain ⟨e, he, hpe⟩ := hasFSA_iff.mp hcon
  obtain ⟨c, hc⟩ := lookup_isFile_some hf
  obtain ⟨hpre, hne⟩ := strictPrefixB_iff.mp hpe
  exact wf_keys_no_prefix hwf e.1 (List.mem_map.mpr ⟨e, he, rfl⟩) p
    (List.mem_map.mpr ⟨(p, c), mem_of_lookup hc, rfl⟩) hne hpre

theorem wf_keys_nodup {fs : FS} (hwf : fs.wfB = true) :
    (fs.files.map (·.1)).Nodup := by
  have hp := (wfB_parts hwf).1
  rw [pairwiseNoPrefixB_iff] at hp
  refine hp.imp ?_
  intro a b h heq
  exact h.1 (by rw [heq])

theorem find?_key_of_mem_nodup : ∀ (l : List (FPath × FSFile)),
    (l.map (·.1)).Nodup → ∀ {p : FPath} {c : FSFile}, (p, c) ∈ l →
    l.find? (fun e => e.1 == p) = some (p, c) := by
  intro l
  induction l with
  | nil => intro _ p c hm; cases hm
  | cons e rest ih =>
      intro hnd p c hm
      rw [List.map_cons, List.nodup_cons] at hnd
      rcases List.mem_cons.mp hm with heq | hm'
      · rw [← heq]
        simp [List.find?_cons]
      · have hne : e.1 ≠ p := by
          intro heq
          exact hnd.1 (heq ▸ List.mem_map.mpr ⟨(p, c), hm', rfl⟩)
        simp only [List.find?_cons, beq_eq_false_iff_ne.mpr hne]
        exact ih hnd.2 hm'

theorem lookup_of_mem_nodup {fs : FS} (hnd : (fs.files.map (·.1)).Nodup)
    {p : FPath} {c : FSFile} (hm : (p, c) ∈ fs.files) : fs.lookup p = some c := by
  unfold FS.lookup
  rw [find?_key_of_mem_nodup _ hnd hm]
  rfl

/-! ### Well-formedness: preservation by the enable loop -/

theorem wfB_mk {fs : FS}
    (h1 : (fs.files.map (·.1)).Pairwise (fun p q => ¬ p <+: q ∧ ¬ q <+: p))
    (h2 : ∀ d ∈ fs.dirs, ∀ e ∈ fs.files, ¬ e.1 <+: d) :
    fs.wfB = true := by
  unfold FS.wfB
  rw [Bool.and_eq_true]
  constructor
  · exact (pairwiseNoPrefixB_iff _).mpr h1
  · rw [List.all_eq_true]
    intro d hd
    have hany : fs.files.any (fun e => e.1.isPrefixOf d) = false := by
      rcases hb : fs.files.any (fun e => e.1.isPrefixOf d) with _ | _
      · rfl
      · obtain ⟨e, he, hp⟩ := List.any_eq_true.mp hb
        exact absurd (List.isPrefixOf_iff_prefix.mp hp) (h2 d hd e he)
    rw [hany]
    rfl

theorem wf_sub {fs fs' : FS} (hwf : fs'.wfB = true)
    (hfiles : List.Sublist fs.files fs'.files)
    (hdirs : ∀ d ∈ fs.dirs, d ∈ fs'.dirs) : fs.wfB = true := by
  refine wfB_mk ?_ ?_
  · have hp := (wfB_parts hwf).1
    rw [pairwiseNoPrefixB_iff] at hp
    exact List.Pairwise.sublist (hfiles.map _) hp
  · intro d hd e he
    exact wf_dirs hwf d (hdirs d hd) e (hfiles.subset he)

theorem wf_mkdirP_guarded {fs : FS} (hwf : fs.wfB = true) {d : FPath}
    (hnf : fs.isFile d = false) (hfsa : fs.hasFileStrictAncestor d = false) :
    (fs.mkdirP d).wfB = true := by
  refine wfB_mk ?_ ?_
  · rw [files_mkdirP]
    have hp := (wfB_parts hwf).1
    rw [pairwiseNoPrefixB_iff] at hp
    exact hp
  · intro d' hd' e he
    rw [files_mkdirP] at he
    rcases dirs_mkdirP_mem hd' with hmem | rfl
    · exact wf_dirs hwf d' hmem e he
    · intro hpre
      by_cases heq : e.1 = d'
      · have hf := isFile_of_mem he
        rw [heq] at hf
        rw [hnf] at hf
        exact Bool.noConfusion hf
      · have hsp := strictPrefixB_of e.1 d' hpre heq
        have hf : fs.hasFileStrictAncestor d' = true := hasFSA_iff.mpr ⟨e, he, hsp⟩
        rw [hfsa] at hf
        exact Bool.noConfusion hf

theorem wf_write_guarded {fs : FS} (hwf : fs.wfB = true) {p : FPath} (c : FSFile)
    (hne : p ≠ []) (hnd : fs.isDir p = false)
    (hfsa : fs.hasFileStrictAncestor p = false) :
    ((fs.mkdirP p.dropLast).insertFile p c).wfB = true := by
  have hfeq : ((fs.mkdirP p.dropLast).insertFile p c).files
      = (p, c) :: fs.files.filter (fun e => e.1 != p) := by
    unfold FS.insertFile
    rw [files_mkdirP]
  refine wfB_mk ?_ ?_
  · rw [hfeq, List.map_cons, List.pairwise_cons]
    constructor
    · intro q hq
      obtain ⟨e, he, rfl⟩ := List.mem_map.mp hq
      have hef := List.mem_filter.mp he
      have hne' : e.1 ≠ p := bne_iff_ne.mp hef.2
      constructor
      · intro hppre
        have hsp := strictPrefixB_of p e.1 hppre (fun h => hne' h.symm)
        have hd : fs.isDir p = true := isDir_iff.mpr (Or.inr ⟨e, hef.1, hsp⟩)
        rw [hnd] at hd
        exact Bool.noConfusion hd
      · intro hepre
        have hsp := strictPrefixB_of e.1 p hepre hne'
        have hf : fs.hasFileStrictAncestor p = true := hasFSA_iff.mpr ⟨e, hef.1, hsp⟩
        rw [hfsa] at hf
        exact Bool.noConfusion hf
    · have hp := (wfB_parts hwf).1
      rw [pairwiseNoPrefixB_iff] at hp
      exact List.Pairwise.sublist ((List.filter_sublist _).map _) hp
  · intro d hd e he
    rw [dirs_insertFile] at hd
    have hdm := dirs_mkdirP_mem hd
    rcases mem_files_insertFile.mp he with rfl | ⟨he', hne'⟩
    · intro hpre
      rcases hdm with hmem | rfl
      · have hd2 : fs.isDir p = true := by
          refine isDir_iff.mpr (Or.inl ⟨d, hmem, ?_⟩)
          rcases eq_or_ne p d with rfl | hpd
          · exact Or.inl rfl
          · exact Or.inr (strictPrefixB_of _ _ hpre hpd)
        rw [hnd] at hd2
        exact Bool.noConfusion hd2
      · have hlen : p.length ≤ p.dropLast.length := hpre.length_le
        rw [List.length_dropLast] at hlen
        have hpos : 0 < p.length := List.length_pos.mpr hne
        omega
    · rw [files_mkdirP] at he'
      intro hpre
      rcases hdm with hmem | rfl
      · exact wf_dirs hwf d hmem e he' hpre
      · have hsp : strictPrefixB e.1 p = true :=
          strictPrefixB_trans_prefix hpre (dropLast_strictPrefixB p hne)
        have hf : fs.hasFileStrictAncestor p = true := hasFSA_iff.mpr ⟨e, he', hsp⟩
        rw [hfsa] at hf
        exact Bool.noConfusion hf

theorem drop_ne_nil_of_strictPrefix {p q : FPath} (h : strictPrefixB p q = true) :
    q.drop p.length ≠ [] := by
  obtain ⟨hpre, hne⟩ := strictPrefixB_iff.mp h
  intro hnil
  have hlen2 := congrArg List.length hnil
  rw [List.length_drop] at hlen2
  simp only [List.length_nil] at hlen2
  have hle : q.length ≤ p.length := by omega
  have hle2 := hpre.length_le
  exact hne (hpre.eq_of_length (by omega))

/-- The relative path of a copy item. -/
def itemRel : CopyItem → FPath
  | .dirItem rel => rel
  | .fileItem rel _ => rel

theorem copyItemsOf_rel_ne_nil (modFS : FS) (src : FPath) :
    ∀ it ∈ copyItemsOf modFS src, itemRel it ≠ [] := by
  intro it hit
  unfold copyItemsOf at hit
  rcases List.mem_append.mp hit with h | h
  · obtain ⟨d, hd, rfl⟩ := List.mem_map.mp h
    have hsp : strictPrefixB src d = true := by
      have hd' := List.mem_dedup.mp hd
      rcases List.mem_append.mp hd' with h1 | h1
      · exact (List.mem_filter.mp h1).2
      · unfold derivedDirs at h1
        have h2 := List.mem_dedup.mp h1
        obtain ⟨e, he, hq⟩ := List.mem_flatMap.mp h2
        exact (List.mem_filter.mp hq).2
    exact drop_ne_nil_of_strictPrefix hsp
  · obtain ⟨e, he, rfl⟩ := List.mem_map.mp h
    exact drop_ne_nil_of_strictPrefix (List.mem_filter.mp he).2

theorem wf_runCopyItems (dst : FPath) :
    ∀ (items : List CopyItem) (fs : FS) (n : Nat),
      fs.wfB = true → (∀ it ∈ items, itemRel it ≠ []) →
      (runCopyItems dst items fs n).1.wfB = true := by
  intro items
  induction items with
  | nil => intro fs n hwf _; exact hwf
  | cons it rest ih =>
      intro fs n hwf hne
      cases it with
      | dirItem rel =>
          simp only [runCopyItems]
          split
          · exact hwf
          · rename_i hcond
            rw [Bool.not_eq_true, Bool.or_eq_false_iff] at hcond
            exact ih _ _ (wf_mkdirP_guarded hwf hcond.2 hcond.1)
              (fun x hx => hne x (List.mem_cons_of_mem _ hx))
      | fileItem rel c =>
          simp only [runCopyItems]
          split
          · exact hwf
          · rename_i h1
            split
            · exact hwf
            · rename_i h2
              rw [Bool.not_eq_true] at h1 h2
              have hout : dst ++ rel ≠ [] := by
                intro hh
                exact hne (CopyItem.fileItem rel c) (List.mem_cons_self _ _)
                  (List.append_eq_nil.mp hh).2
              exact ih _ _ (wf_write_guarded hwf c hout h2 h1)
                (fun x hx => hne x (List.mem_cons_of_mem _ hx))

theorem wf_copyAny (modFS : FS) (src : FPath) (fs : FS) {dst : FPath}
    (hwf : fs.wfB = true) (hdst : dst ≠ []) :
    (copyAny modFS src fs dst).1.wfB = true := by
  unfold copyAny
  split
  · split
    · exact hwf
    · rename_i hcond
      rw [Bool.not_eq_true, Bool.or_eq_false_iff] at hcond
      exact wf_runCopyItems dst (copyItemsOf modFS src) (fs.mkdirP dst) 0
        (wf_mkdirP_guarded hwf hcond.1 hcond.2)
        (copyItemsOf_rel_ne_nil modFS src)
  · split
    · split
      · exact hwf
      · split
        · exact hwf
        · rename_i c heq hc1 hc2
          rw [Bool.not_eq_true] at hc1 hc2
          exact wf_write_guarded hwf _ hdst hc2 hc1
    · exact hwf

theorem wf_enableStep (modFS : FS) (plat : String) (base : FPath)
    (st : EnResult) (e : FileEntry) (hwf : st.fs.wfB = true)
    (hts : e.target_subpath ≠ some []) :
    (enableStep modFS plat base st e).fs.wfB = true := by
  unfold enableStep
  split
  · exact hwf
  · split
    · rename_i srel trel hs ht
      split
      · exact hwf
      · have htne : base ++ trel ≠ [] := by
          intro hh
          have h0 : trel = [] := (List.append_eq_nil.mp hh).2
          rw [h0] at ht
          exact hts ht
        have h := wf_copyAny modFS srel st.fs hwf htne
        rcases hc : copyAny modFS srel st.fs (base ++ trel) with ⟨fs1, res⟩
        rw [hc] at h
        cases res <;> exact h
    · exact hwf

theorem wf_enableEntries_go (modFS : FS) (plat : String) (base : FPath) :
    ∀ (entries : List FileEntry) (st : EnResult),
      st.fs.wfB = true → (∀ e ∈ entries, e.target_subpath ≠ some []) →
      ((entries.foldl (enableStep modFS plat base) st).fs).wfB = true := by
  intro entries
  induction entries with
  | nil => intro st hwf _; exact hwf
  | cons e rest ih =>
      intro st hwf hts
      exact ih _ (wf_enableStep modFS plat base st e hwf
          (hts e (List.mem_cons_self e rest)))
        (fun e' he' => hts e' (List.mem_cons_of_mem e he'))

theorem wf_applyCalls (plat : String) :
    ∀ (calls : List EnCall) (fs : FS) (bks : BStore),
      fs.wfB = true →
      (∀ c ∈ calls, ∀ e ∈ c.entries, e.target_subpath ≠ some []) →
      (applyCalls plat calls fs bks).1.wfB = true := by
  intro calls
  induction calls with
  | nil => intro fs bks hwf _; exact hwf
  | cons c rest ih =>
      intro fs bks hwf hts
      exact ih _ _
        (wf_enableEntries_go c.modFS plat c.base c.entries ⟨fs, bks, 0, 0, 0, 0⟩ hwf
          (hts c (List.mem_cons_self c rest)))
        (fun c' hc' => hts c' (List.mem_cons_of_mem c hc'))

/-! ### Restore-point characterisation -/

theorem append_drop_of_prefix {base q : FPath} (h : base <+: q) :
    base ++ q.drop base.length = q := by
  obtain ⟨t, rfl⟩ := h
  rw [List.drop_left]

theorem prefix_append_left (base : FPath) {a b : FPath} (h : a <+: b) :
    base ++ a <+: base ++ b := by
  obtain ⟨t, rfl⟩ := h
  exact ⟨t, by rw [List.append_assoc]⟩

theorem prefix_of_append_left {base a b : FPath} (h : base ++ a <+: base ++ b) :
    a <+: b := by
  obtain ⟨t, ht⟩ := h
  rw [List.append_assoc] at ht
  exact ⟨t, List.append_cancel_left ht⟩

theorem keys_insertFile {rp : FS} {p : FPath} {c : FSFile} {k : FPath} :
    k ∈ (rp.insertFile p c).files.map (·.1) ↔ k = p ∨ k ∈ rp.files.map (·.1) := by
  constructor
  · intro h
    obtain ⟨e, he, rfl⟩ := List.mem_map.mp h
    rcases mem_files_insertFile.mp he with rfl | ⟨he', _⟩
    · exact Or.inl rfl
    · exact Or.inr (List.mem_map.mpr ⟨e, he', rfl⟩)
  · intro h
    rcases h with rfl | h
    · exact List.mem_map.mpr ⟨(k, c), mem_files_insertFile.mpr (Or.inl rfl), rfl⟩
    · obtain ⟨e, he, rfl⟩ := List.mem_map.mp h
      by_cases hep : e.1 = p
      · exact List.mem_map.mpr ⟨(p, c), mem_files_insertFile.mpr (Or.inl rfl), hep.symm⟩
      · exact List.mem_map.mpr ⟨e, mem_files_insertFile.mpr (Or.inr ⟨he, hep⟩), rfl⟩

theorem keys_nodup_insertFile {rp : FS} (h : (rp.files.map (·.1)).Nodup)
    (p : FPath) (c : FSFile) : ((rp.insertFile p c).files.map (·.1)).Nodup := by
  unfold FS.insertFile
  rw [List.map_cons, List.nodup_cons]
  constructor
  · intro hmem
    obtain ⟨e, he, hk⟩ := List.mem_map.mp hmem
    have hne := (List.mem_filter.mp he).2
    rw [bne_iff_ne] at hne
    exact hne hk
  · exact List.Nodup.sublist ((List.filter_sublist _).map _) h

theorem files_mkdirP_fold (g : FPath → FPath) :
    ∀ (l : List FPath) (rp : FS),
      ((l.foldl (fun r d => r.mkdirP (g d)) rp).files) = rp.files := by
  intro l
  induction l with
  | nil => intro rp; rfl
  | cons d rest ih =>
      intro rp
      rw [List.foldl_cons, ih]
      exact files_mkdirP rp (g d)

theorem crpFilesFold (base : FPath) (fs : FS) (hwf : fs.wfB = true) :
    ∀ (l : List (FPath × FSFile)) (rp : FS),
      (∀ e ∈ l, e ∈ fs.files ∧ base <+: e.1) →
      (∀ e ∈ rp.files, fs.lookup (base ++ e.1) = some e.2) →
      ((rp.files.map (·.1)).Nodup) →
      (∀ e ∈ (l.foldl (fun r e => r.insertFile (e.1.drop base.length) e.2) rp).files,
         fs.lookup (base ++ e.1) = some e.2) ∧
      (((l.foldl (fun r e => r.insertFile (e.1.drop base.length) e.2) rp).files.map
          (·.1)).Nodup) ∧
      (∀ k ∈ rp.files.map (·.1),
         k ∈ (l.foldl (fun r e => r.insertFile (e.1.drop base.length) e.2)
            rp).files.map (·.1)) ∧
      (∀ e0 ∈ l, e0.1.drop base.length ∈
         (l.foldl (fun r e => r.insertFile (e.1.drop base.length) e.2)
            rp).files.map (·.1)) ∧
      (∀ k ∈ (l.foldl (fun r e => r.insertFile (e.1.drop base.length) e.2)
            rp).files.map (·.1),
         k ∈ rp.files.map (·.1) ∨ ∃ e0 ∈ l, k = e0.1.drop base.length) := by
  intro l
  induction l with
  | nil =>
      intro rp hl hp hnd
      exact ⟨hp, hnd, fun k hk => hk,
        fun e0 he0 => absurd he0 (List.not_mem_nil _),
        fun k hk => Or.inl hk⟩
  | cons e rest ih =>
      intro rp hl hp hnd
      have he' := hl e (List.mem_cons_self e rest)
      have hkey : base ++ (e.1.drop base.length) = e.1 := append_drop_of_prefix he'.2
      have hp' : ∀ x ∈ (rp.insertFile (e.1.drop base.length) e.2).files,
          fs.lookup (base ++ x.1) = some x.2 := by
        intro x hx
        rcases mem_files_insertFile.mp hx with rfl | ⟨hx', _⟩
        · show fs.lookup (base ++ e.1.drop base.length) = some e.2
          rw [hkey]
          exact lookup_of_mem_nodup (wf_keys_nodup hwf) he'.1
        · exact hp x hx'
      obtain ⟨i1, i2, i3, i4, i5⟩ := ih (rp.insertFile (e.1.drop base.length) e.2)
        (fun x hx => hl x (List.mem_cons_of_mem e hx)) hp'
        (keys_nodup_insertFile hnd _ _)
      refine ⟨i1, i2, ?_, ?_, ?_⟩
      · intro k hk
        exact i3 k (keys_insertFile.mpr (Or.inr hk))
      · intro e0 he0
        rcases List.mem_cons.mp he0 with rfl | he0'
        · exact i3 _ (keys_insertFile.mpr (Or.inl rfl))
        · exact i4 e0 he0'
      · intro k hk
        rcases i5 k hk with hk' | ⟨e0, he0, hke⟩
        · rcases keys_insertFile.mp hk' with rfl | hk''
          · exact Or.inr ⟨e, List.mem_cons_self e rest, rfl⟩
          · exact Or.inl hk''
        · exact Or.inr ⟨e0, List.mem_cons_of_mem e he0, hke⟩

theorem crpStep_inv (base : FPath) (fs : FS) (hwf : fs.wfB = true) (rp : FS)
    (rel : FPath)
    (hp : ∀ e ∈ rp.files, fs.lookup (base ++ e.1) = some e.2)
    (hnd : (rp.files.map (·.1)).Nodup) :
    (∀ e ∈ (crpStep base fs rp rel).files, fs.lookup (base ++ e.1) = some e.2) ∧
    (((crpStep base fs rp rel).files.map (·.1)).Nodup) ∧
    (∀ k ∈ rp.files.map (·.1), k ∈ (crpStep base fs rp rel).files.map (·.1)) ∧
    (∀ r, rel <+: r → fs.isFile (base ++ r) = true →
       r ∈ (crpStep base fs rp rel).files.map (·.1)) ∧
    (∀ k ∈ (crpStep base fs rp rel).files.map (·.1),
       k ∈ rp.files.map (·.1) ∨ rel <+: k) := by
  unfold crpStep
  split
  · rename_i hf
    refine ⟨?_, keys_nodup_insertFile hnd _ _, ?_, ?_, ?_⟩
    · intro e he
      rcases mem_files_insertFile.mp he with rfl | ⟨he', _⟩
      · show fs.lookup (base ++ rel) = some ((fs.lookup (base ++ rel)).getD default)
        obtain ⟨c, hc⟩ := lookup_isFile_some hf
        rw [hc]
        rfl
      · exact hp e he'
    · intro k hk
      exact keys_insertFile.mpr (Or.inr hk)
    · intro r hpre hfr
      have hreq : r = rel := by
        by_contra hne
        have hne2 : base ++ rel ≠ base ++ r := by
          intro hh
          exact hne (List.append_cancel_left hh).symm
        obtain ⟨c1, hc1⟩ := lookup_isFile_some hf
        obtain ⟨c2, hc2⟩ := lookup_isFile_some hfr
        exact wf_keys_no_prefix hwf (base ++ rel)
          (List.mem_map.mpr ⟨_, mem_of_lookup hc1, rfl⟩)
          (base ++ r) (List.mem_map.mpr ⟨_, mem_of_lookup hc2, rfl⟩)
          hne2 (prefix_append_left base hpre)
      rw [hreq]
      exact keys_insertFile.mpr (Or.inl rfl)
    · intro k hk
      rcases keys_insertFile.mp hk with rfl | hk'
      · exact Or.inr (List.prefix_refl _)
      · exact Or.inl hk'
  · split
    · rename_i hnf hdir
      obtain ⟨i1, i2, i3, i4, i5⟩ := crpFilesFold base fs hwf
        (fs.files.filter (fun e => strictPrefixB (base ++ rel) e.1)) rp
        (fun e he => ⟨(List.mem_filter.mp he).1,
          (List.prefix_append base rel).trans
            (strictPrefixB_iff.mp (List.mem_filter.mp he).2).1⟩)
        hp hnd
      have hfe := files_mkdirP_fold (fun d => d.drop base.length)
        (fs.dirs.filter (fun d => (base ++ rel).isPrefixOf d))
        ((fs.files.filter (fun e => strictPrefixB (base ++ rel) e.1)).foldl
          (fun r e => r.insertFile (e.1.drop base.length) e.2) rp)
      refine ⟨?_, ?_, ?_, ?_, ?_⟩
      · intro e he
        rw [hfe] at he
        exact i1 e he
      · rw [hfe]
        exact i2
      · intro k hk
        rw [hfe]
        exact i3 k hk
      · intro r hpre hfr
        rw [hfe]
        have hne : r ≠ rel := by
          rintro rfl
          exact hnf hfr
        obtain ⟨c2, hc2⟩ := lookup_isFile_some hfr
        have hmem : (base ++ r, c2) ∈ fs.files := mem_of_lookup hc2
        have hsp : strictPrefixB (base ++ rel) (base ++ r) = true := by
          refine strictPrefixB_of _ _ (prefix_append_left base hpre) ?_
          intro hh
          exact hne (List.append_cancel_left hh).symm
        have hfilt : (base ++ r, c2) ∈
            fs.files.filter (fun e => strictPrefixB (base ++ rel) e.1) :=
          List.mem_filter.mpr ⟨hmem, hsp⟩
        have h4 := i4 _ hfilt
        have h4' : (base ++ r).drop base.length ∈
            ((fs.files.filter (fun e => strictPrefixB (base ++ rel) e.1)).foldl
              (fun r e => r.insertFile (e.1.drop base.length) e.2) rp).files.map
                (·.1) := h4
        rw [List.drop_left] at h4'
        exact h4'
      · intro k hk
        rw [hfe] at hk
        rcases i5 k hk with hk' | ⟨e0, he0, hke⟩
        · exact Or.inl hk'
        · refine Or.inr ?_
          have hsp := (List.mem_filter.mp he0).2
          obtain ⟨hpre, _⟩ := strictPrefixB_iff.mp hsp
          obtain ⟨t, ht⟩ := hpre
          rw [hke, ← ht, List.append_assoc, List.drop_left]
          exact List.prefix_append rel t
    · rename_i hnf hndir
      refine ⟨hp, hnd, fun k hk => hk, ?_, fun k hk => Or.inl hk⟩
      intro r hpre hfr
      exfalso
      by_cases hreq : r = rel
      · rw [hreq] at hfr
        exact hnf hfr
      · obtain ⟨c2, hc2⟩ := lookup_isFile_some hfr
        have hsp : strictPrefixB (base ++ rel) (base ++ r) = true := by
          refine strictPrefixB_of _ _ (prefix_append_left base hpre) ?_
          intro hh
          exact hreq (List.append_cancel_left hh).symm
        have hd2 : fs.isDir (base ++ rel) = true :=
          isDir_iff.mpr (Or.inr ⟨(base ++ r, c2), mem_of_lookup hc2, hsp⟩)
        exact hndir hd2

theorem crp_go (base : FPath) (fs : FS) (hwf : fs.wfB = true) :
    ∀ (keys : List FPath) (acc : FS),
      (∀ e ∈ acc.files, fs.lookup (base ++ e.1) = some e.2) →
      ((acc.files.map (·.1)).Nodup) →
      (∀ e ∈ (keys.foldl (crpStep base fs) acc).files,
         fs.lookup (base ++ e.1) = some e.2) ∧
      (((keys.foldl (crpStep base fs) acc).files.map (·.1)).Nodup) ∧
      (∀ k ∈ acc.files.map (·.1),
         k ∈ (keys.foldl (crpStep base fs) acc).files.map (·.1)) ∧
      (∀ m ∈ keys, ∀ r, m <+: r → fs.isFile (base ++ r) = true →
         r ∈ (keys.foldl (crpStep base fs) acc).files.map (·.1)) ∧
      (∀ k ∈ (keys.foldl (crpStep base fs) acc).files.map (·.1),
         k ∈ acc.files.map (·.1) ∨ ∃ m ∈ keys, m <+: k) := by
  intro keys
  induction keys with
  | nil =>
      intro acc hp hnd
      exact ⟨hp, hnd, fun k hk => hk,
        fun m hm => absurd hm (List.not_mem_nil _),
        fun k hk => Or.inl hk⟩
  | cons m rest ih =>
      intro acc hp hnd
      obtain ⟨s1, s2, s3, s4, s5⟩ := crpStep_inv base fs hwf acc m hp hnd
      obtain ⟨g1, g2, g3, g4, g5⟩ := ih (crpStep base fs acc m) s1 s2
      refine ⟨g1, g2, ?_, ?_, ?_⟩
      · intro k hk
        exact g3 k (s3 k hk)
      · intro m0 hm0 r hpre hfr
        rcases List.mem_cons.mp hm0 with rfl | hm0'
        · exact g3 r (s4 r hpre hfr)
        · exact g4 m0 hm0' r hpre hfr
      · intro k hk
        rcases g5 k hk with hk' | ⟨m0, hm0, hmk⟩
        · rcases s5 k hk' with hk'' | hmk
          · exact Or.inl hk''
          · exact Or.inr ⟨m, List.mem_cons_self m rest, hmk⟩
        · exact Or.inr ⟨m0, List.mem_cons_of_mem m hm0, hmk⟩

theorem crp_pairs {base : FPath} {fs : FS} (hwf : fs.wfB = true) (keys : List FPath) :
    ∀ e ∈ (create_restore_point base fs keys).files,
      fs.lookup (base ++ e.1) = some e.2 :=
  (crp_go base fs hwf keys ⟨[], []⟩ (fun e he => absurd he (List.not_mem_nil e))
    List.nodup_nil).1

theorem crp_nodup {base : FPath} {fs : FS} (hwf : fs.wfB = true) (keys : List FPath) :
    ((create_restore_point base fs keys).files.map (·.1)).Nodup :=
  (crp_go base fs hwf keys ⟨[], []⟩ (fun e he => absurd he (List.not_mem_nil e))
    List.nodup_nil).2.1

theorem crp_covers {base : FPath} {fs : FS} (hwf : fs.wfB = true) (keys : List FPath) :
    ∀ m ∈ keys, ∀ r, m <+: r → fs.isFile (base ++ r) = true →
      r ∈ (create_restore_point base fs keys).files.map (·.1) :=
  (crp_go base fs hwf keys ⟨[], []⟩ (fun e he => absurd he (List.not_mem_nil e))
    List.nodup_nil).2.2.2.1

theorem crp_prov {base : FPath} {fs : FS} (hwf : fs.wfB = true) (keys : List FPath) :
    ∀ k ∈ (create_restore_point base fs keys).files.map (·.1),
      ∃ m ∈ keys, m <+: k := by
  intro k hk
  rcases (crp_go base fs hwf keys ⟨[], []⟩
      (fun e he => absurd he (List.not_mem_nil e)) List.nodup_nil).2.2.2.2 k hk with
    h | h
  · exact absurd h (List.not_mem_nil _)
  · exact h

theorem rp_lookup_managed {base : FPath} {fs : FS} (hwf : fs.wfB = true)
    {keys : List FPath} {m r : FPath} (hm : m ∈ keys) (hpre : m <+: r)
    (hfr : fs.isFile (base ++ r) = true) :
    (create_restore_point base fs keys).lookup r = fs.lookup (base ++ r) := by
  have hk := crp_covers hwf keys m hm r hpre hfr
  obtain ⟨e, he, hke⟩ := List.mem_map.mp hk
  have hl : (create_restore_point base fs keys).lookup e.1 = some e.2 :=
    lookup_of_mem_nodup (crp_nodup hwf keys) he
  have hp2 := crp_pairs hwf keys e he
  rw [hke] at hl hp2
  rw [hl, hp2]

theorem rp_lookup_none {base : FPath} {fs : FS} (hwf : fs.wfB = true)
    {keys : List FPath} {r : FPath} (hfr : fs.isFile (base ++ r) = false) :
    (create_restore_point base fs keys).lookup r = none := by
  rcases hl : (create_restore_point base fs keys).lookup r with _ | c
  · rfl
  · have hmem := mem_of_lookup hl
    have hpair := crp_pairs hwf keys (r, c) hmem
    have hpair2 : fs.lookup (base ++ r) = some c := hpair
    have hf : fs.isFile (base ++ r) = true := by
      unfold FS.isFile
      rw [hpair2]
      rfl
    rw [hfr] at hf
    exact Bool.noConfusion hf

theorem rp_keys_ne_nil {base : FPath} {fs : FS} (hwf : fs.wfB = true)
    {keys : List FPath} (hkne : ∀ m ∈ keys, m ≠ []) :
    ∀ k ∈ (create_restore_point base fs keys).files.map (·.1), k ≠ [] := by
  intro k hk hknil
  obtain ⟨m, hm, hpre⟩ := crp_prov hwf keys k hk
  rw [hknil] at hpre
  exact hkne m hm (List.prefix_nil.mp hpre)

theorem rp_keys_pairwise {base : FPath} {fs : FS} (hwf : fs.wfB = true)
    (keys : List FPath) :
    ∀ a ∈ (create_restore_point base fs keys).files,
      ∀ b ∈ (create_restore_point base fs keys).files,
        a.1 ≠ b.1 → ¬ a.1 <+: b.1 := by
  intro a ha b hb hne hpre
  have h1 := crp_pairs hwf keys a ha
  have h2 := crp_pairs hwf keys b hb
  have hne2 : base ++ a.1 ≠ base ++ b.1 := fun hh => hne (List.append_cancel_left hh)
  exact wf_keys_no_prefix hwf (base ++ a.1)
    (List.mem_map.mpr ⟨_, mem_of_lookup h1, rfl⟩)
    (base ++ b.1) (List.mem_map.mpr ⟨_, mem_of_lookup h2, rfl⟩)
    hne2 (prefix_append_left base hpre)

/-! ### Rollback phase 1: orphan deletion -/

/-- During phase 1 of the rollback over managed keys `ms`, a live path `q` is
removed exactly when it is a file of the post-apply tree lying under some
managed key and its base-relative path is not among the snapshot files. -/
def delB (fsp : FS) (base : FPath) (rf : List FPath) (ms : List FPath)
    (q : FPath) : Bool :=
  fsp.isFile q && ms.any (fun m => (base ++ m).isPrefixOf q) &&
    !(rf.contains (q.drop base.length))

theorem delB_append_singleton (fsp : FS) (base : FPath) (rf : List FPath)
    (done : List FPath) (m : FPath) (q : FPath) :
    delB fsp base rf (done ++ [m]) q
      = (delB fsp base rf done q ||
         (fsp.isFile q && (base ++ m).isPrefixOf q &&
           !(rf.contains (q.drop base.length)))) := by
  simp only [delB, List.any_append, List.any_cons, List.any_nil]
  cases fsp.isFile q <;> cases rf.contains (q.drop base.length) <;>
    cases done.any (fun m0 => (base ++ m0).isPrefixOf q) <;>
    cases (base ++ m).isPrefixOf q <;> rfl

theorem delB_nil (fsp : FS) (base : FPath) (rf : List FPath) (q : FPath) :
    delB fsp base rf [] q = false := by
  simp [delB]

theorem phase1_notExists (base : FPath) (rf : List FPath) (f : FS) (m : FPath)
    (h : f.pathExists (base ++ m) = false) :
    rollbackPhase1Step base rf f m = f := by
  simp [rollbackPhase1Step, h]

theorem phase1_file_kept (base : FPath) (rf : List FPath) (f : FS) (m : FPath)
    (hf : f.isFile (base ++ m) = true) (hrf : rf.contains m = true) :
    rollbackPhase1Step base rf f m = f := by
  have hm : m ∈ rf := by
    have h2 := hrf
    simp [List.contains] at h2
    exact h2
  simp [rollbackPhase1Step, hf, hm, FS.pathExists]

theorem phase1_file_removed (base : FPath) (rf : List FPath) (f : FS) (m : FPath)
    (hf : f.isFile (base ++ m) = true) (hrf : rf.contains m = false) :
    rollbackPhase1Step base rf f m = f.removeFile (base ++ m) := by
  have hm : m ∉ rf := by
    have h2 := hrf
    simp [List.contains] at h2
    exact h2
  simp [rollbackPhase1Step, hf, hm, FS.pathExists]

theorem phase1_dir (base : FPath) (rf : List FPath) (f : FS) (m : FPath)
    (hnf : f.isFile (base ++ m) = false) (hd : f.isDir (base ++ m) = true) :
    rollbackPhase1Step base rf f m =
      { files := f.files.filter (fun e =>
          !(strictPrefixB (base ++ m) e.1 && !(rf.contains (e.1.drop base.length)))),
        dirs := f.dirs.filter (fun d =>
          !(strictPrefixB (base ++ m) d &&
            !((f.files.filter (fun e =>
                !(strictPrefixB (base ++ m) e.1 &&
                  !(rf.contains (e.1.drop base.length))))).any
              (fun e => strictPrefixB d e.1)))) } := by
  simp [rollbackPhase1Step, hnf, hd, FS.pathExists]

theorem find?_filter_keys (g : FPath → Bool) (q : FPath) :
    ∀ (l : List (FPath × FSFile)),
      ((l.filter (fun e => g e.1)).find? (fun e => e.1 == q)).map (·.2)
        = if g q = true then (l.find? (fun e => e.1 == q)).map (·.2) else none := by
  intro l
  induction l with
  | nil =>
      cases hg : g q <;> simp
  | cons e rest ih =>
      by_cases hq : e.1 = q
      · rcases hg : g q with _ | _
        · have hge : g e.1 = false := by rw [hq, hg]
          rw [List.filter_cons_of_neg (by rw [hge]; exact Bool.false_ne_true)]
          rw [ih, hg]
          simp
        · have hge : g e.1 = true := by rw [hq, hg]
          rw [List.filter_cons_of_pos (by rw [hge])]
          simp [List.find?_cons, beq_iff_eq.mpr hq]
      · rcases hge : g e.1 with _ | _
        · rw [List.filter_cons_of_neg (by rw [hge]; exact Bool.false_ne_true)]
          rw [ih]
          rcases hg : g q with _ | _
          · rfl
          · have hb : (e.1 == q) = false := beq_eq_false_iff_ne.mpr hq
            simp [List.find?_cons, hb]
        · rw [List.filter_cons_of_pos (by rw [hge])]
          have hb : (e.1 == q) = false := beq_eq_false_iff_ne.mpr hq
          simp only [List.find?_cons, hb]
          rw [ih]

theorem find?_filter_del (tp : FPath) (base : FPath) (rf : List FPath) (q : FPath)
    (l : List (FPath × FSFile)) :
    ((l.filter (fun e =>
        !(strictPrefixB tp e.1 && !(rf.contains (e.1.drop base.length))))).find?
          (fun e => e.1 == q)).map (·.2)
      = if (!(strictPrefixB tp q && !(rf.contains (q.drop base.length)))) = true
        then (l.find? (fun e => e.1 == q)).map (·.2) else none :=
  find?_filter_keys
    (fun x => !(strictPrefixB tp x && !(rf.contains (x.drop base.length)))) q l

theorem lookup_phase1_dir (base : FPath) (rf : List FPath) (f : FS) (m : FPath)
    (q : FPath) (hnf : f.isFile (base ++ m) = false) (hd : f.isDir (base ++ m) = true) :
    (rollbackPhase1Step base rf f m).lookup q
      = if (!(strictPrefixB (base ++ m) q && !(rf.contains (q.drop base.length)))) = true
        then f.lookup q else none := by
  rw [phase1_dir base rf f m hnf hd]
  exact find?_filter_del (base ++ m) base rf q f.files

theorem phase1_step_inv (fsp : FS) (base : FPath) (rf : List FPath)
    (hwf : fsp.wfB = true) (done : List FPath) (m : FPath) (f : FS)
    (hl : ∀ q, f.lookup q = if delB fsp base rf done q = true then none
        else fsp.lookup q)
    (hdirs : ∀ d ∈ f.dirs, d ∈ fsp.dirs)
    (hsub : List.Sublist f.files fsp.files) :
    (∀ q, (rollbackPhase1Step base rf f m).lookup q
        = if delB fsp base rf (done ++ [m]) q = true then none
          else fsp.lookup q) ∧
    (∀ d ∈ (rollbackPhase1Step base rf f m).dirs, d ∈ fsp.dirs) ∧
    List.Sublist (rollbackPhase1Step base rf f m).files fsp.files := by
  have hisf : ∀ q, f.isFile q = (!(delB fsp base rf done q) && fsp.isFile q) := by
    intro q
    unfold FS.isFile
    rw [hl q]
    rcases hdel : delB fsp base rf done q with _ | _
    · simp [FS.isFile]
    · simp
  by_cases hex : f.pathExists (base ++ m) = true
  · by_cases hfm : f.isFile (base ++ m) = true
    · have hfspm : fsp.isFile (base ++ m) = true := by
        have h2 := hfm
        rw [hisf (base ++ m), Bool.and_eq_true] at h2
        exact h2.2
      by_cases hctn : rf.contains m = true
      · rw [phase1_file_kept base rf f m hfm hctn]
        refine ⟨?_, hdirs, hsub⟩
        intro q
        rw [hl q, delB_append_singleton]
        rcases hdel : delB fsp base rf done q with _ | _
        · simp only [Bool.false_or]
          rcases hnew : (fsp.isFile q && (base ++ m).isPrefixOf q &&
              !(rf.contains (q.drop base.length))) with _ | _
          · rfl
          · exfalso
            rw [Bool.and_eq_true, Bool.and_eq_true] at hnew
            obtain ⟨⟨hqf, hqpre⟩, hqnc⟩ := hnew
            by_cases hqe : q = base ++ m
            · rw [hqe, List.drop_left, hctn] at hqnc
              exact Bool.noConfusion hqnc
            · have hpre := List.isPrefixOf_iff_prefix.mp hqpre
              obtain ⟨c1, hc1⟩ := lookup_isFile_some hfspm
              obtain ⟨c2, hc2⟩ := lookup_isFile_some hqf
              exact wf_keys_no_prefix hwf (base ++ m)
                (List.mem_map.mpr ⟨_, mem_of_lookup hc1, rfl⟩) q
                (List.mem_map.mpr ⟨_, mem_of_lookup hc2, rfl⟩)
                (fun h => hqe h.symm) hpre
        · rfl
      · rw [Bool.not_eq_true] at hctn
        have hdelm : delB fsp base rf done (base ++ m) = false := by
          rcases hd0 : delB fsp base rf done (base ++ m) with _ | _
          · rfl
          · rw [hisf (base ++ m), hd0] at hfm
            exact Bool.noConfusion hfm
        rw [phase1_file_removed base rf f m hfm hctn]
        refine ⟨?_, hdirs, ?_⟩
        · intro q
          rw [lookup_removeFile, delB_append_singleton]
          by_cases hqe : q = base ++ m
          · rw [if_pos hqe, hqe, hdelm]
            simp only [Bool.false_or]
            have hrefl : (base ++ m).isPrefixOf (base ++ m) = true :=
              List.isPrefixOf_iff_prefix.mpr (List.prefix_refl _)
            rw [hfspm, hrefl, List.drop_left, hctn]
            rfl
          · rw [if_neg hqe, hl q]
            rcases hdel : delB fsp base rf done q with _ | _
            · simp only [Bool.false_or]
              rcases hnew : (fsp.isFile q && (base ++ m).isPrefixOf q &&
                  !(rf.contains (q.drop base.length))) with _ | _
              · rfl
              · exfalso
                rw [Bool.and_eq_true, Bool.and_eq_true] at hnew
                obtain ⟨⟨hqf, hqpre⟩, _⟩ := hnew
                have hpre := List.isPrefixOf_iff_prefix.mp hqpre
                obtain ⟨c1, hc1⟩ := lookup_isFile_some hfspm
                obtain ⟨c2, hc2⟩ := lookup_isFile_some hqf
                exact wf_keys_no_prefix hwf (base ++ m)
                  (List.mem_map.mpr ⟨_, mem_of_lookup hc1, rfl⟩) q
                  (List.mem_map.mpr ⟨_, mem_of_lookup hc2, rfl⟩)
                  (fun h => hqe h.symm) hpre
            · rfl
        · exact List.Sublist.trans (List.filter_sublist _) hsub
    · rw [Bool.not_eq_true] at hfm
      by_cases hdm : f.isDir (base ++ m) = true
      · refine ⟨?_, ?_, ?_⟩
        · intro q
          rw [lookup_phase1_dir base rf f m q hfm hdm, hl q, delB_append_singleton]
          rcases hdel : delB fsp base rf done q with _ | _
          · simp only [Bool.false_or]
            rcases hfspf : fsp.isFile q with _ | _
            · have hlook := lookup_none_of_not_isFile hfspf
              rw [hlook]
              simp
            · rcases hspb : strictPrefixB (base ++ m) q with _ | _
              · rcases hpreb : (base ++ m).isPrefixOf q with _ | _
                · simp
                · exfalso
                  have hq : q = base ++ m := by
                    have hpre := List.isPrefixOf_iff_prefix.mp hpreb
                    by_contra hne
                    rw [strictPrefixB_of _ _ hpre (fun h => hne h.symm)] at hspb
                    exact Bool.noConfusion hspb
                  have hfq : f.isFile q = true := by
                    rw [hisf q, hdel, hfspf]
                    rfl
                  rw [hq, hfm] at hfq
                  exact Bool.noConfusion hfq
              · rcases hctb : rf.contains (q.drop base.length) with _ | _
                · have hpreb : (base ++ m).isPrefixOf q = true :=
                    List.isPrefixOf_iff_prefix.mpr (strictPrefixB_iff.mp hspb).1
                  rw [hpreb]
                  simp
                · simp
          · rcases hgb : (!(strictPrefixB (base ++ m) q &&
                !(rf.contains (q.drop base.length)))) with _ | _ <;> rfl
        · intro d hd
          rw [phase1_dir base rf f m hfm hdm] at hd
          exact hdirs d (List.mem_filter.mp hd).1
        · rw [phase1_dir base rf f m hfm hdm]
          exact List.Sublist.trans (List.filter_sublist _) hsub
      · rw [Bool.not_eq_true] at hdm
        rw [FS.pathExists, hfm, hdm] at hex
        exact Bool.noConfusion hex
  · rw [Bool.not_eq_true] at hex
    rw [phase1_notExists base rf f m hex]
    refine ⟨?_, hdirs, hsub⟩
    intro q
    rw [hl q, delB_append_singleton]
    rcases hdel : delB fsp base rf done q with _ | _
    · simp only [Bool.false_or]
      rcases hnew : (fsp.isFile q && (base ++ m).isPrefixOf q &&
          !(rf.contains (q.drop base.length))) with _ | _
      · rfl
      · exfalso
        rw [Bool.and_eq_true, Bool.and_eq_true] at hnew
        obtain ⟨⟨hqf, hqpre⟩, hqnc⟩ := hnew
        have hfq : f.isFile q = true := by
          rw [hisf q, hdel, hqf]
          rfl
        have hpre := List.isPrefixOf_iff_prefix.mp hqpre
        obtain ⟨c, hc⟩ := lookup_isFile_some hfq
        by_cases hqe : q = base ++ m
        · rw [hqe] at hfq
          rw [FS.pathExists, hfq] at hex
          exact Bool.noConfusion hex
        · have hsp : strictPrefixB (base ++ m) q = true :=
            strictPrefixB_of _ _ hpre (fun h => hqe h.symm)
          have hdm2 : f.isDir (base ++ m) = true :=
            isDir_iff.mpr (Or.inr ⟨(q, c), mem_of_lookup hc, hsp⟩)
          rw [FS.pathExists, hdm2, Bool.or_true] at hex
          exact Bool.noConfusion hex
    · rfl

theorem phase1_go (fsp : FS) (base : FPath) (rf : List FPath)
    (hwf : fsp.wfB = true) :
    ∀ (ms : List FPath) (done : List FPath) (f : FS),
      (∀ q, f.lookup q = if delB fsp base rf done q = true then none
          else fsp.lookup q) →
      (∀ d ∈ f.dirs, d ∈ fsp.dirs) →
      List.Sublist f.files fsp.files →
      (∀ q, (ms.foldl (rollbackPhase1Step base rf) f).lookup q
          = if delB fsp base rf (done ++ ms) q = true then none
            else fsp.lookup q) ∧
      (∀ d ∈ (ms.foldl (rollbackPhase1Step base rf) f).dirs, d ∈ fsp.dirs) ∧
      List.Sublist (ms.foldl (rollbackPhase1Step base rf) f).files fsp.files := by
  intro ms
  induction ms with
  | nil =>
      intro done f hl hdirs hsub
      refine ⟨?_, hdirs, hsub⟩
      intro q
      rw [List.append_nil]
      exact hl q
  | cons m rest ih =>
      intro done f hl hdirs hsub
      obtain ⟨s1, s2, s3⟩ := phase1_step_inv fsp base rf hwf done m f hl hdirs hsub
      have hres := ih (done ++ [m]) (rollbackPhase1Step base rf f m) s1 s2 s3
      rw [List.append_assoc] at hres
      exact hres

theorem phase1_main (fsp : FS) (base : FPath) (rf : List FPath)
    (hwf : fsp.wfB = true) (ms : List FPath) :
    (∀ q, (ms.foldl (rollbackPhase1Step base rf) fsp).lookup q
        = if delB fsp base rf ms q = true then none else fsp.lookup q) ∧
    (∀ d ∈ (ms.foldl (rollbackPhase1Step base rf) fsp).dirs, d ∈ fsp.dirs) ∧
    List.Sublist (ms.foldl (rollbackPhase1Step base rf) fsp).files fsp.files := by
  have h0 : ∀ q, fsp.lookup q = if delB fsp base rf [] q = true then none
      else fsp.lookup q := by
    intro q
    rw [delB_nil]
    rfl
  have hres := phase1_go fsp base rf hwf ms [] fsp h0 (fun d hd => hd)
    (List.Sublist.refl _)
  rw [List.nil_append] at hres
  exact hres

/-! ### Rollback phase 2: restore -/

theorem runRestore_cons_ok (base : FPath) (b : FPath × FSFile)
    (rest : List (FPath × FSFile)) (f : FS)
    (hfsa : f.hasFileStrictAncestor (base ++ b.1) = false)
    (hdir : f.isDir (base ++ b.1) = false) :
    runRestore base (b :: rest) f
      = runRestore base rest
          ((f.mkdirP (base ++ b.1).dropLast).insertFile (base ++ b.1) b.2) := by
  rcases b with ⟨rel, c⟩
  simp [runRestore, hfsa, hdir]

theorem runRestore_chain (base : FPath) :
    ∀ (items : List (FPath × FSFile)) (f : FS),
      (∀ b ∈ items, b.1 ≠ []) →
      ((items.map (·.1)).Nodup) →
      (∀ b ∈ items, ∀ b' ∈ items, b.1 ≠ b'.1 → ¬ b.1 <+: b'.1) →
      (∀ b ∈ items, f.isDir (base ++ b.1) = false ∧
        f.hasFileStrictAncestor (base ++ b.1) = false) →
      (runRestore base items f).2 = true ∧
      (∀ b ∈ items, (runRestore base items f).1.lookup (base ++ b.1) = some b.2) ∧
      (∀ q, (∀ b ∈ items, base ++ b.1 ≠ q) →
        (runRestore base items f).1.lookup q = f.lookup q) := by
  intro items
  induction items with
  | nil =>
      intro f _ _ _ _
      exact ⟨rfl, fun b hb => absurd hb (List.not_mem_nil b), fun q _ => rfl⟩
  | cons b rest ih =>
      intro f hne hnd hpw hfree
      obtain ⟨hdir, hfsa⟩ := hfree b (List.mem_cons_self b rest)
      rw [runRestore_cons_ok base b rest f hfsa hdir]
      have hkeys : ∀ b' ∈ rest, b'.1 ≠ b.1 := by
        intro b' hb' heq
        rw [List.map_cons, List.nodup_cons] at hnd
        exact hnd.1 (List.mem_map.mpr ⟨b', hb', heq⟩)
      have hfree' : ∀ b' ∈ rest,
          ((f.mkdirP (base ++ b.1).dropLast).insertFile (base ++ b.1) b.2).isDir
            (base ++ b'.1) = false ∧
          ((f.mkdirP (base ++ b.1).dropLast).insertFile (base ++ b.1)
            b.2).hasFileStrictAncestor (base ++ b'.1) = false := by
        intro b' hb'
        have h1 := hfree b' (List.mem_cons_of_mem b hb')
        have hne1 : b'.1 ≠ b.1 := hkeys b' hb'
        have hp1 : strictPrefixB (base ++ b'.1) (base ++ b.1) = false := by
          rcases hb2 : strictPrefixB (base ++ b'.1) (base ++ b.1) with _ | _
          · rfl
          · obtain ⟨hpre, _⟩ := strictPrefixB_iff.mp hb2
            exact absurd (prefix_of_append_left hpre)
              (hpw b' (List.mem_cons_of_mem b hb') b (List.mem_cons_self b rest) hne1)
        have hp2 : strictPrefixB (base ++ b.1) (base ++ b'.1) = false := by
          rcases hb2 : strictPrefixB (base ++ b.1) (base ++ b'.1) with _ | _
          · rfl
          · obtain ⟨hpre, _⟩ := strictPrefixB_iff.mp hb2
            exact absurd (prefix_of_append_left hpre)
              (hpw b (List.mem_cons_self b rest) b' (List.mem_cons_of_mem b hb')
                (fun h => hne1 h.symm))
        exact targetFree_preserved f base b.1 b'.1 b.2
          (hne b (List.mem_cons_self b rest)) h1.1 h1.2 hp1 hp2
      obtain ⟨r1, r2, r3⟩ := ih
        ((f.mkdirP (base ++ b.1).dropLast).insertFile (base ++ b.1) b.2)
        (fun b' hb' => hne b' (List.mem_cons_of_mem b hb'))
        (by
          rw [List.map_cons, List.nodup_cons] at hnd
          exact hnd.2)
        (fun b' hb' b'' hb'' => hpw b' (List.mem_cons_of_mem b hb') b''
          (List.mem_cons_of_mem b hb''))
        hfree'
      refine ⟨r1, ?_, ?_⟩
      · intro b0 hb0
        rcases List.mem_cons.mp hb0 with rfl | hb0'
        · rw [r3 (base ++ b0.1) (fun b' hb' heq =>
            hkeys b' hb' (List.append_cancel_left heq))]
          rw [lookup_insertFile]
          rw [if_pos rfl]
        · exact r2 b0 hb0'
      · intro q hq
        rw [r3 q (fun b' hb' => hq b' (List.mem_cons_of_mem b hb'))]
        rw [lookup_insertFile, if_neg (fun h =>
          hq b (List.mem_cons_self b rest) h.symm), lookup_mkdirP]

theorem rollback_round_trip_general (base : FPath) (fs0 fsp rp fs1 : FS)
    (keys : List FPath)
    (hrp : rp = create_restore_point base fs0 keys)
    (hfs1 : fs1 = keys.foldl (rollbackPhase1Step base (rp.files.map (·.1))) fsp)
    (hwf0 : fs0.wfB = true) (hwfp : fsp.wfB = true)
    (hx1 : ∀ p, fs0.isFile p = true → fsp.isFile p = true)
    (hkne : ∀ m ∈ keys, m ≠ []) :
    (runRestore base rp.files fs1).2 = true ∧
    ∀ r : FPath, (∃ m ∈ keys, m <+: r) →
      (runRestore base rp.files fs1).1.lookup (base ++ r)
        = fs0.lookup (base ++ r) := by
  obtain ⟨p1, p2, p3⟩ := phase1_main fsp base (rp.files.map (·.1)) hwfp keys
  rw [← hfs1] at p1 p2 p3
  have hpairs : ∀ e ∈ rp.files, fs0.lookup (base ++ e.1) = some e.2 := by
    rw [hrp]
    exact crp_pairs hwf0 keys
  have hnd : (rp.files.map (·.1)).Nodup := by
    rw [hrp]
    exact crp_nodup hwf0 keys
  have hpw : ∀ a ∈ rp.files, ∀ b ∈ rp.files, a.1 ≠ b.1 → ¬ a.1 <+: b.1 := by
    rw [hrp]
    exact rp_keys_pairwise hwf0 keys
  have hne : ∀ b ∈ rp.files, b.1 ≠ [] := by
    rw [hrp]
    exact fun b hb =>
      rp_keys_ne_nil hwf0 hkne b.1 (List.mem_map.mpr ⟨b, hb, rfl⟩)
  have hfree : ∀ b ∈ rp.files, fs1.isDir (base ++ b.1) = false ∧
      fs1.hasFileStrictAncestor (base ++ b.1) = false := by
    intro b hb
    have hf0 : fs0.isFile (base ++ b.1) = true := by
      unfold FS.isFile
      rw [hpairs b hb]
      rfl
    have hfp : fsp.isFile (base ++ b.1) = true := hx1 _ hf0
    have hnd2 := wf_isFile_not_isDir hwfp hfp
    have hnf2 := wf_isFile_not_hasFSA hwfp hfp
    constructor
    · rcases hbd : fs1.isDir (base ++ b.1) with _ | _
      · rfl
      · exfalso
        rcases isDir_iff.mp hbd with ⟨d, hd, hpd⟩ | ⟨e, he, hpe⟩
        · have h2 : fsp.isDir (base ++ b.1) = true :=
            isDir_iff.mpr (Or.inl ⟨d, p2 d hd, hpd⟩)
          rw [hnd2] at h2
          exact Bool.noConfusion h2
        · have h2 : fsp.isDir (base ++ b.1) = true :=
            isDir_iff.mpr (Or.inr ⟨e, p3.subset he, hpe⟩)
          rw [hnd2] at h2
          exact Bool.noConfusion h2
    · rcases hbf : fs1.hasFileStrictAncestor (base ++ b.1) with _ | _
      · rfl
      · exfalso
        obtain ⟨e, he, hpe⟩ := hasFSA_iff.mp hbf
        have h2 : fsp.hasFileStrictAncestor (base ++ b.1) = true :=
          hasFSA_iff.mpr ⟨e, p3.subset he, hpe⟩
        rw [hnf2] at h2
        exact Bool.noConfusion h2
  obtain ⟨r1, r2, r3⟩ := runRestore_chain base rp.files fs1 hne hnd hpw hfree
  refine ⟨r1, ?_⟩
  rintro r ⟨m, hm, hpre⟩
  by_cases hf0 : fs0.isFile (base ++ r) = true
  · have hrpl : rp.lookup r = fs0.lookup (base ++ r) := by
      rw [hrp]
      exact rp_lookup_managed hwf0 hm hpre hf0
    obtain ⟨c, hc0⟩ := lookup_isFile_some hf0
    rw [hc0] at hrpl
    have hmem : (r, c) ∈ rp.files := mem_of_lookup hrpl
    have hfin := r2 (r, c) hmem
    rw [hc0]
    exact hfin
  · rw [Bool.not_eq_true] at hf0
    have hf0n := lookup_none_of_not_isFile hf0
    rw [hf0n]
    have hnotkey : ∀ b ∈ rp.files, b.1 ≠ r := by
      intro b hb heq
      have hthis := hpairs b hb
      rw [heq, hf0n] at hthis
      exact Option.noConfusion hthis
    have hq := r3 (base ++ r)
      (fun b hb heq => hnotkey b hb (List.append_cancel_left heq))
    rw [hq, p1 (base ++ r)]
    rcases hfspf : fsp.isFile (base ++ r) with _ | _
    · rw [lookup_none_of_not_isFile hfspf]
      simp
    · have hpre2 : (base ++ m).isPrefixOf (base ++ r) = true :=
        List.isPrefixOf_iff_prefix.mpr (prefix_append_left base hpre)
      have hany : keys.any (fun m0 => (base ++ m0).isPrefixOf (base ++ r)) = true :=
        List.any_eq_true.mpr ⟨m, hm, hpre2⟩
      have hctn : (rp.files.map (·.1)).contains ((base ++ r).drop base.length)
          = false := by
        rw [List.drop_left]
        rcases hcb : (rp.files.map (·.1)).contains r with _ | _
        · exact hcb
        · exfalso
          have h2 := hcb
          simp [List.contains] at h2
          obtain ⟨c2, hc2⟩ := h2
          exact hnotkey (r, c2) hc2 rfl
      have hdel : delB fsp base (rp.files.map (·.1)) keys (base ++ r) = true := by
        unfold delB
        rw [hfspf, hany, hctn]
        rfl
      rw [hdel]
      rfl

/-- **C2.** Restore-point round trip: `create_restore_point` snapshots the
live root over the conflict-index keys of the enabled set; after any batch of
`enable_mod` per-entry loops modifies the root, `rollback_to_restore_point`
with that snapshot and the same managed keys completes its restore phase and
leaves every path under a managed key byte-for-byte at its pre-apply content:
pre-existing files are restored from the snapshot, and every file introduced
after the snapshot under a managed path is deleted (orphans first, then every
snapshot file is copied back). -/
theorem rollback_restore_round_trip
    (mods : List (String × ModData)) (enabled : List String) (plat : String)
    (idx : ModIndex) (base : FPath) (fs0 : FS) (bks0 : BStore)
    (calls : List EnCall)
    (_hidx : build_mod_index mods enabled plat = .ok idx)
    (hwf0 : fs0.wfB = true)
    (hkne : ∀ m ∈ idx.map (·.1), m ≠ [])
    (hcalls : ∀ c ∈ calls, ∀ e ∈ c.entries, e.target_subpath ≠ some []) :
    (rollback_to_restore_point base (applyCalls plat calls fs0 bks0).1
        (create_restore_point base fs0 (idx.map (·.1))) (idx.map (·.1))).2
      = true ∧
    ∀ r : FPath, (∃ m ∈ idx.map (·.1), m <+: r) →
      (rollback_to_restore_point base (applyCalls plat calls fs0 bks0).1
          (create_restore_point base fs0 (idx.map (·.1)))
          (idx.map (·.1))).1.lookup (base ++ r)
        = fs0.lookup (base ++ r) := by
  have h := rollback_round_trip_general base fs0 (applyCalls plat calls fs0 bks0).1
    (create_restore_point base fs0 (idx.map (·.1)))
    ((idx.map (·.1)).foldl
      (rollbackPhase1Step base
        ((create_restore_point base fs0 (idx.map (·.1))).files.map (·.1)))
      (applyCalls plat calls fs0 bks0).1)
    (idx.map (·.1)) rfl rfl hwf0
    (wf_applyCalls plat calls fs0 bks0 hwf0 hcalls)
    (exts_applyCalls plat calls fs0 bks0).1 hkne
  exact h

/-- Witness for C2: one enabled mod overwrites the managed target `r/cfg`
(bytes `[7]` before the apply, `[9]` from the mod); the rollback restores the
pre-apply bytes. -/
theorem rollback_restore_round_trip_witness :
    (rollback_to_restore_point ["r"]
        (applyCalls "mac"
          [⟨⟨[(["a"], ⟨[9], 2⟩)], []⟩, ["r"], [⟨"", some ["a"], some ["cfg"]⟩]⟩]
          ⟨[(["r", "cfg"], ⟨[7], 1⟩)], []⟩ []).1
        (create_restore_point ["r"] ⟨[(["r", "cfg"], ⟨[7], 1⟩)], []⟩
          ([((["cfg"] : FPath), ["alpha"])].map (·.1)))
        ([((["cfg"] : FPath), ["alpha"])].map (·.1))).1.lookup
        (["r"] ++ ["cfg"])
      = some ⟨[7], 1⟩ := by
  have h := rollback_restore_round_trip
    [("alpha", ⟨.ok ⟨some "Alpha", some "misc", none,
        some [⟨"", some ["a"], some ["cfg"]⟩]⟩,
      ⟨[(["a"], ⟨[9], 2⟩)], []⟩⟩)]
    ["alpha"] "mac" [(["cfg"], ["alpha"])] ["r"]
    ⟨[(["r", "cfg"], ⟨[7], 1⟩)], []⟩ []
    [⟨⟨[(["a"], ⟨[9], 2⟩)], []⟩, ["r"], [⟨"", some ["a"], some ["cfg"]⟩]⟩]
    (by decide) (by decide) (by decide) (by decide)
  have h2 := h.2 ["cfg"] ⟨["cfg"], by decide, by decide⟩
  rw [h2]
  decide

end FMM
